import Mathlib

/-!
# Verification of `tree_transform`

A shallow embedding of `tree_transform/tree_transform.py` and proofs about it.

Paths, identifiers and file names are modelled as `List Char` (Python `str`
compares and slices by code points, which `List Char` mirrors exactly).
Python dicts are modelled as association lists with dict semantics
(first-occurrence lookup, in-place update, removal); Python sets are modelled
as lists queried only through membership.  Python exceptions are modelled with
`Except`; the unbounded recursion of `get_final_path` and
`acquire_existing_id` is modelled with an explicit fuel argument (the wrapper
passes enough fuel for every input on which the Python code terminates, and
returns `Err.recursionError` — Python's `RecursionError` — otherwise).
-/

deriving instance DecidableEq for Except

set_option synthInstance.maxSize 2048

/-- Paths, file ids and names: Python strings as lists of code points. -/
abbrev PathStr := List Char

/-- Literal helper: the code points of a string literal. -/
def strL (s : String) : PathStr := s.data

/-- The exception taxonomy of the source module plus the built-in Python
exceptions it can raise (`KeyError`, `ValueError`, `RecursionError`). -/
inductive Err where
  | noSuchFile
  | isDirectory
  | noParent
  | parentNotDir
  | notPending
  | keyError
  | valueError
  | recursionError
deriving DecidableEq, Repr

/-- A stored object: the `DIRECTORY` marker or a blob of bytes. -/
inductive Obj where
  | dir
  | blob (data : List Nat)
deriving DecidableEq, Repr

/-- A `MemoryFileStore` entry: `(file_mode, content)` where the mode can be
Python `None` (as written by `create_file`). -/
abbrev Entry := Option Nat × Obj

/-! ## Python dict operations on association lists -/

/-- `d[k]` as an option: value of the first pair with key `k`. -/
def dictLookup {β : Type} : List (PathStr × β) → PathStr → Option β
  | [], _ => none
  | (k', v) :: t, k => if k' = k then some v else dictLookup t k

/-- `d[k] = v`: replace the binding in place, else append. -/
def dictSet {β : Type} : List (PathStr × β) → PathStr → β → List (PathStr × β)
  | [], k, v => [(k, v)]
  | (k', v') :: t, k, v =>
    if k' = k then (k, v) :: t else (k', v') :: dictSet t k v

/-- `d.pop(k)` with no default: remove the binding for `k`. -/
def dictErase {β : Type} : List (PathStr × β) → PathStr → List (PathStr × β)
  | [], _ => []
  | (k', v) :: t, k =>
    if k' = k then dictErase t k else (k', v) :: dictErase t k

/-- `d.pop(k, default)`: the value for `k` if bound, else the default. -/
def dictGetD {β : Type} (d : List (PathStr × β)) (k : PathStr) (v₀ : β) : β :=
  (dictLookup d k).getD v₀

/-! ## Python set operations on (duplicate-free) lists -/

/-- `s.add(x)`. -/
def setAdd (s : List PathStr) (x : PathStr) : List PathStr :=
  if x ∈ s then s else x :: s

/-- `s.remove(x)` / `s.discard(x)` (membership-wise). -/
def setErase (s : List PathStr) (x : PathStr) : List PathStr :=
  s.filter (fun y => y ≠ x)

/-! ## PathStr-string primitives (`os.path` on POSIX, for the cases the module
exercises: relative slash-separated paths) -/

/-- Python string `<`: lexicographic comparison by code point. -/
def pathLt : PathStr → PathStr → Bool
  | _, [] => false
  | [], _ :: _ => true
  | a :: as, b :: bs =>
    if a.toNat < b.toNat then true
    else if b.toNat < a.toNat then false
    else pathLt as bs

/-- Python `s.startswith(pre)`. -/
def startswith : PathStr → PathStr → Bool
  | _, [] => true
  | [], _ :: _ => false
  | c :: s, d :: pre => c = d && startswith s pre

/-- `os.path.join(a, b)` for one join step (POSIX). -/
def osJoin (a b : PathStr) : PathStr :=
  if b.head? = some '/' then b
  else if a = [] ∨ a.getLast? = some '/' then a ++ b
  else a ++ '/' :: b

/-- `os.path.split(p)` (POSIX): split at the last slash; the head keeps no
trailing slashes unless it consists only of slashes. -/
def osSplit (p : PathStr) : PathStr × PathStr :=
  let rev := p.reverse
  let base := (rev.takeWhile (fun c => c ≠ '/')).reverse
  let restRev := rev.dropWhile (fun c => c ≠ '/')
  let head :=
    if restRev.all (fun c => c = '/') then restRev.reverse
    else (restRev.dropWhile (fun c => c = '/')).reverse
  (head, base)

/-- `os.path.dirname`. -/
def osDirname (p : PathStr) : PathStr := (osSplit p).1

/-- `os.path.basename`. -/
def osBasename (p : PathStr) : PathStr := (osSplit p).2

/-- Python `p.split('/')`: split on every slash, keeping empty components. -/
def splitSep : PathStr → List PathStr
  | [] => [[]]
  | c :: rest =>
    let r := splitSep rest
    if c = '/' then [] :: r
    else match r with
      | [] => [[c]]
      | h :: t => (c :: h) :: t

/-- `'/'.join(comps)`. -/
def joinSegs : List PathStr → PathStr
  | [] => []
  | [s] => s
  | s :: rest => s ++ '/' :: joinSegs rest

/-- The component loop of POSIX `os.path.normpath`: skip empty and `'.'`
components; `'..'` pops a previous real component, and is kept at the front
of a relative path. -/
def normParts (isAbs : Bool) : List PathStr → List PathStr → List PathStr
  | [], acc => acc.reverse
  | c :: cs, acc =>
    if c = [] ∨ c = strL "." then normParts isAbs cs acc
    else if c = strL ".." then
      match acc with
      | [] => if isAbs then normParts isAbs cs [] else normParts isAbs cs [c]
      | top :: rest =>
        if top = strL ".." then normParts isAbs cs (c :: top :: rest)
        else normParts isAbs cs rest
    else normParts isAbs cs (c :: acc)

/-- POSIX `os.path.normpath` (without the irrelevant `'//'`-doubling corner
case; the module only normalizes tree-relative paths). -/
def normpath (p : PathStr) : PathStr :=
  if p = [] then strL "."
  else
    let isAbs := p.head? = some '/'
    let body := joinSegs (normParts isAbs (splitSep p) [])
    let r := if isAbs then '/' :: body else body
    if r = [] then strL "." else r

/-- Decimal rendering of a counter value, as Python `format` does. -/
def natToChars (n : Nat) : List Char := Nat.toDigits 10 n

/-- The predicate of `only_subpaths`: `path == super_path or
path.startswith(super_path + os.sep)`. -/
def isSubpathB (sup p : PathStr) : Bool :=
  p = sup || startswith p (sup ++ ['/'])

/-- `only_subpaths(super_path, paths)`. -/
def only_subpaths (sup : PathStr) (paths : List PathStr) : List PathStr :=
  paths.filter (fun p => isSubpathB sup p)

/-! ## Stable sort (Python `list.sort` with a key, via insertion sort).
The results proved below (and the concrete plans computed) only depend on the
ordering of elements with distinct keys, where every correct sort agrees. -/

/-- Insert `x` into `l` before the first element `y` with `lt x y`. -/
def insertBy {α : Type} (lt : α → α → Bool) (x : α) : List α → List α
  | [] => [x]
  | y :: ys => if lt x y then x :: y :: ys else y :: insertBy lt x ys

/-- Sort ascending with respect to `lt`. -/
def sortBy {α : Type} (lt : α → α → Bool) : List α → List α
  | [] => []
  | x :: xs => insertBy lt x (sortBy lt xs)

/-! ## `MemoryFileStore`: a key/value blob store in memory (no filesystem
restrictions such as parent directories). -/

/-- The `_content` dict of a `MemoryFileStore`. -/
abbrev Store := List (PathStr × Entry)

namespace MemoryFileStore

/-- `iter_subpaths(full_path)`. -/
def iter_subpaths (m : Store) (p : PathStr) : List PathStr :=
  only_subpaths p (m.map Prod.fst)

/-- `write_content(full_path, file_mode, strings)`. -/
def write_content (m : Store) (p : PathStr) (mode : Option Nat)
    (data : List Nat) : Store :=
  dictSet m p (mode, Obj.blob data)

/-- `mkdir(full_path, file_mode)`. -/
def mkdir (m : Store) (p : PathStr) (mode : Option Nat) : Store :=
  dictSet m p (mode, Obj.dir)

/-- `read_content(full_path)`: the blob, `NoSuchFile` when absent,
`IsDirectory` on the directory marker. -/
def read_content (m : Store) (p : PathStr) : Except Err (List Nat) :=
  match dictLookup m p with
  | none => .error .noSuchFile
  | some (_, Obj.dir) => .error .isDirectory
  | some (_, Obj.blob data) => .ok data

/-- `get_file_mode(full_path)`. -/
def get_file_mode (m : Store) (p : PathStr) : Except Err (Option Nat) :=
  match dictLookup m p with
  | none => .error .noSuchFile
  | some (mode, _) => .ok mode

/-- `discard(full_path)`: `pop` with a default, never fails. -/
def discard (m : Store) (p : PathStr) : Store :=
  dictErase m p

/-- `rename(old_path, new_path)`: `self._content[new_path] =
self._content.pop(old_path)` — moves exactly one key; `KeyError` when the
old key is absent. -/
def rename (m : Store) (old new : PathStr) : Except Err Store :=
  match dictLookup m old with
  | none => .error .keyError
  | some v => .ok (dictSet (dictErase m old) new v)

end MemoryFileStore

/-! ## `OverlayFileStore`: a mutable overlay over an immutable base.
The base is modelled as another `MemoryFileStore` (as in the test suite). -/

structure OverlayFS where
  base : Store
  overlay : Store
  overlayContent : List PathStr
  renames : List (PathStr × PathStr)
deriving DecidableEq, Repr

namespace OverlayFileStore

/-- `_base_path(current_path)`. -/
def base_path (st : OverlayFS) (p : PathStr) : PathStr :=
  dictGetD st.renames p p

/-- `write_content`. -/
def write_content (st : OverlayFS) (p : PathStr) (mode : Option Nat)
    (data : List Nat) : OverlayFS :=
  { st with overlayContent := setAdd st.overlayContent p,
            overlay := MemoryFileStore.write_content st.overlay p mode data }

/-- `mkdir`. -/
def mkdir (st : OverlayFS) (p : PathStr) (mode : Option Nat) : OverlayFS :=
  { st with overlayContent := setAdd st.overlayContent p,
            overlay := MemoryFileStore.mkdir st.overlay p mode }

/-- `read_content(full_path)`: overlay-resident paths read the overlay,
everything else falls through to the base via the rename remap. -/
def read_content (st : OverlayFS) (p : PathStr) : Except Err (List Nat) :=
  if p ∈ st.overlayContent then MemoryFileStore.read_content st.overlay p
  else MemoryFileStore.read_content st.base (base_path st p)

/-- `get_file_mode(full_path)`. -/
def get_file_mode (st : OverlayFS) (p : PathStr) : Except Err (Option Nat) :=
  if p ∈ st.overlayContent then MemoryFileStore.get_file_mode st.overlay p
  else MemoryFileStore.get_file_mode st.base (base_path st p)

/-- `discard(full_path)`: records overlay membership (shadowing the base)
and drops any overlay content. -/
def discard (st : OverlayFS) (p : PathStr) : OverlayFS :=
  { st with overlayContent := setAdd st.overlayContent p,
            overlay := MemoryFileStore.discard st.overlay p }

/-- The loop of `rename` over `list(self.overlay_content)`: every key whose
`len(old_path)`-character slice equals `old_path` (a raw string prefix test)
is moved to `new_path + key[len(old_path):]` in both the membership set and
the overlay store. -/
def renameLoop (old new : PathStr) :
    List PathStr → List PathStr × Store → Except Err (List PathStr × Store)
  | [], s => .ok s
  | k :: ks, (set_, ov) =>
    if k.take old.length ≠ old then renameLoop old new ks (set_, ov)
    else
      let nk := new ++ k.drop old.length
      match MemoryFileStore.rename ov k nk with
      | .error e => .error e
      | .ok ov' => renameLoop old new ks (setAdd (setErase set_ k) nk, ov')

/-- `rename(old_path, new_path)`: the overlay loop plus
`self.renames[new_path] = self.renames.pop(old_path, old_path)`. -/
def rename (st : OverlayFS) (old new : PathStr) : Except Err OverlayFS :=
  match renameLoop old new st.overlayContent (st.overlayContent, st.overlay) with
  | .error e => .error e
  | .ok (set_, ov) =>
    .ok { st with overlayContent := set_, overlay := ov,
                  renames := dictSet (dictErase st.renames old) new
                               (dictGetD st.renames old old) }

end OverlayFileStore

/-! ## `StoreTree`: a tree over a `MemoryFileStore` that enforces filesystem
shape.  The theorems below use the default construction (`tree_root = ''`, as
in the module's test suite), for which `full_path` and `relpath` are the
identity on relative paths. -/

namespace StoreTree

/-- `_require_parent(full_path)`: the parent must exist and be a directory. -/
def require_parent (m : Store) (p : PathStr) : Except Err Unit :=
  match MemoryFileStore.read_content m (osDirname p) with
  | .error .noSuchFile => .error .noParent
  | .error .isDirectory => .ok ()
  | .error e => .error e
  | .ok _ => .error .parentNotDir

/-- `write_content(path, file_mode, strings)`. -/
def write_content (m : Store) (p : PathStr) (mode : Option Nat)
    (data : List Nat) : Except Err Store :=
  match require_parent m p with
  | .error e => .error e
  | .ok _ => .ok (MemoryFileStore.write_content m p mode data)

/-- `mkdir(path, file_mode)` (no parent check at the store level). -/
def mkdir (m : Store) (p : PathStr) (mode : Option Nat) : Store :=
  MemoryFileStore.mkdir m p mode

/-- `rename(old_path, new_path)`: checks the destination's parent, then
delegates to the store. -/
def rename (m : Store) (old new : PathStr) : Except Err Store :=
  match require_parent m new with
  | .error e => .error e
  | .ok _ => MemoryFileStore.rename m old new

/-- `rmtree(path)`: discard every stored subpath of `path`. -/
def rmtree (m : Store) (p : PathStr) : Store :=
  m.filter (fun kv => !(isSubpathB p kv.1))

/-- `BaseTree.apply_renames(renames)`: perform the renames in order; an
exception stops the batch, leaving the store as the applied prefix left it. -/
def apply_renames (m : Store) : List (PathStr × PathStr) → Store × Option Err
  | [] => (m, none)
  | (old, new) :: rest =>
    match rename m old new with
    | .error e => (m, some e)
    | .ok m' => apply_renames m' rest

end StoreTree

/-! ## `TreeTransform` -/

/-- The member state of an active transform (`__enter__` initializes all of
these; `tempName` is the name `mkdtemp` chose for the staging subtree). -/
structure ActiveTT where
  nameInfo : List (PathStr × (PathStr × PathStr))
  counter : Nat
  removeIds : List PathStr
  newContentsPath : List (PathStr × PathStr)
  tempName : PathStr
deriving DecidableEq, Repr

/-- A transform is inactive (every member is the raising
`InactiveTransform` sentinel) or active with its member state. -/
inductive TTState where
  | inactive
  | active (d : ActiveTT)
deriving DecidableEq, Repr

namespace TreeTransform

/-- `_tree_path_to_id(path)`: `'e-' + normpath(path)`, `ValueError` when the
normalized path escapes the tree. -/
def tree_path_to_id (p : PathStr) : Except Err PathStr :=
  let np := normpath p
  if startswith np (strL "..") then .error .valueError
  else .ok (strL "e-" ++ np)

/-- `_tree_id_to_path(file_id)`: strip the `'e-'` discriminator,
`ValueError` otherwise. -/
def tree_id_to_path (fid : PathStr) : Except Err PathStr :=
  if fid.take 2 ≠ strL "e-" then .error .valueError
  else .ok (fid.drop 2)

/-- `make_new_id(name)`: `'n-{counter}-{name}'`; `NotPending` when
inactive. -/
def make_new_id (st : TTState) (nm : PathStr) :
    Except Err (PathStr × TTState) :=
  match st with
  | .inactive => .error .notPending
  | .active d =>
    .ok (strL "n-" ++ natToChars d.counter ++ '-' :: nm,
         .active { d with counter := d.counter + 1 })

/-- `set_name_info(file_id, parent_id, name)`. -/
def set_name_info (st : TTState) (fid pid nm : PathStr) :
    Except Err TTState :=
  match st with
  | .inactive => .error .notPending
  | .active d =>
    .ok (.active { d with nameInfo := dictSet d.nameInfo fid (pid, nm) })

/-- `get_name(file_id)`. -/
def get_name (st : TTState) (fid : PathStr) : Except Err PathStr :=
  match st with
  | .inactive => .error .notPending
  | .active d =>
    match dictLookup d.nameInfo fid with
    | some (_, nm) => .ok nm
    | none =>
      match tree_id_to_path fid with
      | .error e => .error e
      | .ok p =>
        if p = strL "." then .error .keyError else .ok (osBasename p)

/-- `get_parent(file_id)`. -/
def get_parent (st : TTState) (fid : PathStr) : Except Err PathStr :=
  match st with
  | .inactive => .error .notPending
  | .active d =>
    match dictLookup d.nameInfo fid with
    | some (pid, _) => .ok pid
    | none =>
      match tree_id_to_path fid with
      | .error e => .error e
      | .ok p =>
        if p = strL "." then .error .keyError
        else tree_path_to_id (osDirname p)

/-- The recursion of `get_final_path(file_id)` over the name-info graph,
with fuel: `none` means the Python code has not returned within `fuel`
nested calls (on a cyclic parent chain it never returns). -/
def final_path_fuel (ni : List (PathStr × (PathStr × PathStr))) :
    Nat → PathStr → Option (Except Err PathStr)
  | 0, _ => none
  | fuel + 1, fid =>
    match dictLookup ni fid with
    | none => some (tree_id_to_path fid)
    | some (pid, nm) =>
      if pid = strL "e-." then some (.ok nm)
      else
        match final_path_fuel ni fuel pid with
        | none => none
        | some (.error e) => some (.error e)
        | some (.ok pp) => some (.ok (osJoin pp nm))

/-- `get_final_path(file_id, parent_id, name)` with both optional arguments
given (as `_generate_insert_renames` calls it): skip the lookup and resolve
the parent recursively. -/
def final_path_from (ni : List (PathStr × (PathStr × PathStr))) (fuel : Nat)
    (pid nm : PathStr) : Option (Except Err PathStr) :=
  if pid = strL "e-." then some (.ok nm)
  else
    match final_path_fuel ni fuel pid with
    | none => none
    | some (.error e) => some (.error e)
    | some (.ok pp) => some (.ok (osJoin pp nm))

/-- `get_final_path(file_id)` on a transform: `NotPending` when inactive. -/
def get_final_path (st : TTState) (fuel : Nat) (fid : PathStr) :
    Option (Except Err PathStr) :=
  match st with
  | .inactive => some (.error .notPending)
  | .active d => final_path_fuel d.nameInfo fuel fid

/-- The recursion of `acquire_existing_id(path)`, with fuel (the recursion
descends through `os.path.split`; for pathological inputs such as `'/'` the
Python code recurses forever, modelled as `RecursionError`). -/
def acquire_existing_aux : Nat → TTState → PathStr →
    Except Err (PathStr × TTState)
  | 0, _, _ => .error .recursionError
  | fuel + 1, st, p =>
    match tree_path_to_id p with
    | .error e => .error e
    | .ok fid =>
      if p = strL "." ∨ p = [] then .ok (fid, st)
      else
        match st with
        | .inactive => .error .notPending
        | .active d =>
          if (dictLookup d.nameInfo fid).isSome then .ok (fid, st)
          else
            match acquire_existing_aux fuel st (osSplit p).1 with
            | .error e => .error e
            | .ok (pid, st') =>
              match set_name_info st' fid pid (osSplit p).2 with
              | .error e => .error e
              | .ok st'' => .ok (fid, st'')

/-- `acquire_existing_id(path)`: each recursive call strictly shortens the
path, so `length + 1` fuel realizes the Python recursion exactly on every
input on which it terminates. -/
def acquire_existing_id (st : TTState) (p : PathStr) :
    Except Err (PathStr × TTState) :=
  acquire_existing_aux (p.length + 1) st p

/-- `create_file(name, parent_id, contents)` against the backing store:
mints an id, records name-info, writes the staged content at
`<temp>/new/<id>` (a `StoreTree` write, with parent enforcement) and
remembers the staged location. -/
def create_file (m : Store) (st : TTState) (nm pid : PathStr)
    (data : List Nat) : Except Err (PathStr × TTState × Store) :=
  match make_new_id st nm with
  | .error e => .error e
  | .ok (fid, st₁) =>
    match set_name_info st₁ fid pid nm with
    | .error e => .error e
    | .ok st₂ =>
      match st₂ with
      | .inactive => .error .notPending
      | .active d =>
        let full := osJoin (osJoin d.tempName (strL "new")) fid
        match StoreTree.write_content m full none data with
        | .error e => .error e
        | .ok m' =>
          .ok (fid,
               .active { d with newContentsPath :=
                           dictSet d.newContentsPath fid full },
               m')

/-- `delete(file_id)`: schedule removal. -/
def delete (st : TTState) (fid : PathStr) : Except Err TTState :=
  match st with
  | .inactive => .error .notPending
  | .active d => .ok (.active { d with removeIds := setAdd d.removeIds fid })

/-- `__enter__` against the backing store: make the staging subtree (named
`tname` by `mkdtemp`) with its `new` and `old` regions, and initialize the
member state. -/
def enterTT (m : Store) (tname : PathStr) : Store × ActiveTT :=
  let m₁ := StoreTree.mkdir m tname (some 448)
  let m₂ := StoreTree.mkdir m₁ (osJoin tname (strL "new")) (some 448)
  let m₃ := StoreTree.mkdir m₂ (osJoin tname (strL "old")) (some 448)
  (m₃, ⟨[], 0, [], [], tname⟩)

/-- The first loop of `_generate_remove_renames`: every name-info entry that
is neither freshly created nor scheduled for deletion is moved from its
original path into the inbound staging region, keyed by its id. -/
def removeLoop1 (skip : List (PathStr × PathStr)) (rem : List PathStr)
    (relNew : PathStr) :
    List (PathStr × (PathStr × PathStr)) → List (PathStr × PathStr) →
    Except Err (List (PathStr × PathStr) × List (PathStr × PathStr))
  | [], ncp => .ok ([], ncp)
  | (fid, _) :: items, ncp =>
    if (dictLookup skip fid).isSome then removeLoop1 skip rem relNew items ncp
    else if fid ∈ rem then removeLoop1 skip rem relNew items ncp
    else
      match tree_id_to_path fid with
      | .error e => .error e
      | .ok oldp =>
        let newp := osJoin relNew fid
        match removeLoop1 skip rem relNew items (dictSet ncp fid newp) with
        | .error e => .error e
        | .ok (rest, ncp') => .ok ((oldp, newp) :: rest, ncp')

/-- The second loop of `_generate_remove_renames`: entries scheduled for
deletion are moved into the outbound staging region. -/
def removeLoop2 (relOld : PathStr) :
    List PathStr → Except Err (List (PathStr × PathStr))
  | [] => .ok []
  | fid :: fids =>
    match tree_id_to_path fid with
    | .error e => .error e
    | .ok oldp =>
      match removeLoop2 relOld fids with
      | .error e => .error e
      | .ok rest => .ok ((oldp, osJoin relOld fid) :: rest)

/-- `_generate_remove_renames()`: both loops, then
`remove_renames.sort(key=lambda p: p[0], reverse=True)` — a sort by the raw
old-path string, descending. -/
def generate_remove_renames (d : ActiveTT) :
    Except Err (List (PathStr × PathStr) × List (PathStr × PathStr)) :=
  let relNew := osJoin d.tempName (strL "new")
  let relOld := osJoin d.tempName (strL "old")
  match removeLoop1 d.newContentsPath d.removeIds relNew d.nameInfo
      d.newContentsPath with
  | .error e => .error e
  | .ok (l₁, ncp') =>
    match removeLoop2 relOld d.removeIds with
    | .error e => .error e
    | .ok l₂ => .ok (sortBy (fun a b => pathLt b.1 a.1) (l₁ ++ l₂), ncp')

/-- The loop of `_generate_insert_renames`: every name-info entry with a
staged source is renamed from there to its final path. -/
def insertLoop (ni : List (PathStr × (PathStr × PathStr))) (fuel : Nat)
    (ncp : List (PathStr × PathStr)) :
    List (PathStr × (PathStr × PathStr)) →
    Option (Except Err (List (PathStr × PathStr)))
  | [] => some (.ok [])
  | (fid, (pid, nm)) :: items =>
    match dictLookup ncp fid with
    | none => insertLoop ni fuel ncp items
    | some oldp =>
      match final_path_from ni fuel pid nm with
      | none => none
      | some (.error e) => some (.error e)
      | some (.ok newp) =>
        match insertLoop ni fuel ncp items with
        | none => none
        | some (.error e) => some (.error e)
        | some (.ok rest) => some (.ok ((oldp, newp) :: rest))

/-- `_generate_insert_renames(new_contents_path)`: the loop, then
`insert_renames.sort(key=lambda p: p[1])` — a sort by the raw final-path
string, ascending. -/
def generate_insert_renames (ni : List (PathStr × (PathStr × PathStr)))
    (fuel : Nat) (ncp : List (PathStr × PathStr)) :
    Option (Except Err (List (PathStr × PathStr))) :=
  match insertLoop ni fuel ncp ni with
  | none => none
  | some (.error e) => some (.error e)
  | some (.ok l) => some (.ok (sortBy (fun a b => pathLt a.2 b.2) l))

/-- `generate_renames()`: the Phase-1 list followed by the Phase-2 list. -/
def generate_renames (d : ActiveTT) (fuel : Nat) :
    Option (Except Err (List (PathStr × PathStr))) :=
  match generate_remove_renames d with
  | .error e => some (.error e)
  | .ok (rem, ncp') =>
    match generate_insert_renames d.nameInfo fuel ncp' with
    | none => none
    | some (.error e) => some (.error e)
    | some (.ok ins) => some (.ok (rem ++ ins))

/-- `__exit__` with a pending exception: skip apply, tear down the staging
subtree, deactivate. -/
def exit_exception (m : Store) (tname : PathStr) : Store × TTState :=
  (StoreTree.rmtree m tname, TTState.inactive)

/-- `__exit__` without a pending exception: when writing, generate and apply
the plan first; an exception raised by plan generation or application
propagates out of `__exit__` before the `rmtree` and the deactivation run. -/
def exit_success (m : Store) (d : ActiveTT) (fuel : Nat) (write : Bool) :
    Option ((Store × TTState) × Option Err) :=
  if write then
    match generate_renames d fuel with
    | none => none
    | some (.error e) => some ((m, .active d), some e)
    | some (.ok plan) =>
      match StoreTree.apply_renames m plan with
      | (m', some e) => some ((m', .active d), some e)
      | (m', none) =>
        some ((StoreTree.rmtree m' d.tempName, .inactive), none)
  else some ((StoreTree.rmtree m d.tempName, .inactive), none)

/-- The transform operations a with-block can perform. -/
inductive TOp where
  | acq (p : PathStr)
  | newId (nm : PathStr)
  | setInfo (fid pid nm : PathStr)
  | createF (nm pid : PathStr) (data : List Nat)
  | del (fid : PathStr)

/-- One with-block operation against store and transform state; an exception
leaves the store as the operation left it (only `create_file` writes, and
only as its final action). -/
def stepOp (op : TOp) (m : Store) (st : TTState) :
    (Store × TTState) × Option Err :=
  match op with
  | .acq p =>
    match acquire_existing_id st p with
    | .error e => ((m, st), some e)
    | .ok (_, st') => ((m, st'), none)
  | .newId nm =>
    match make_new_id st nm with
    | .error e => ((m, st), some e)
    | .ok (_, st') => ((m, st'), none)
  | .setInfo fid pid nm =>
    match set_name_info st fid pid nm with
    | .error e => ((m, st), some e)
    | .ok st' => ((m, st'), none)
  | .createF nm pid data =>
    match create_file m st nm pid data with
    | .error e => ((m, st), some e)
    | .ok (_, st', m') => ((m', st'), none)
  | .del fid =>
    match delete st fid with
    | .error e => ((m, st), some e)
    | .ok st' => ((m, st'), none)

/-- Run with-block operations in order; the first exception aborts the
block. -/
def runOps : List TOp → Store × TTState → (Store × TTState) × Option Err
  | [], s => (s, none)
  | op :: ops, (m, st) =>
    match stepOp op m st with
    | (s', none) => runOps ops s'
    | (s', some e) => (s', some e)

/-- A whole active scope that exits with an exception (either an operation
raised, or the block raised after the operations): enter, run the block's
operations, tear down. -/
def run_scope_exception (m : Store) (tname : PathStr) (ops : List TOp) :
    Store × TTState :=
  let s₁ := enterTT m tname
  let r := runOps ops (s₁.1, TTState.active s₁.2)
  exit_exception r.1.1 tname

end TreeTransform

/-! ## Derived predicates used by the specification's ordering claims -/

/-- Structural depth: the number of path segments. -/
def segDepth (p : PathStr) : Nat := (splitSep p).length

/-- `p` is a strict structural ancestor of `q`: `q` extends `p` at a
path-segment boundary. -/
def StrictAncestor (p q : PathStr) : Prop := ∃ r, q = p ++ '/' :: r

/-- Termination of the `get_final_path` recursion on a name-info graph:
some amount of fuel makes it return. -/
def TerminatesFinalPath (ni : List (PathStr × (PathStr × PathStr)))
    (fid : PathStr) : Prop :=
  ∃ fuel, (TreeTransform.final_path_fuel ni fuel fid).isSome = true

/-- The overlay rename's image of a relocated key. -/
def renamedKey (old new k : PathStr) : PathStr := new ++ k.drop old.length

/-! ## Concrete states used by counterexamples and failing-input theorems -/

/-- A tree with directories `dir1` and `dir1/dir2` (plus the root), as a
fresh `StoreTree` would hold them. -/
def swapStore₀ : Store :=
  [([], (some 448, Obj.dir)),
   (strL "dir1", (some 448, Obj.dir)),
   (strL "dir1/dir2", (some 448, Obj.dir))]

/-- That tree right after `__enter__` picked the staging name
`transform-t`. -/
def swapStore₁ : Store :=
  (TreeTransform.enterTT swapStore₀ (strL "transform-t")).1

/-- The active state recording the directory swap: `dir1` placed as name
`dir1` under `dir1/dir2`'s identifier, `dir1/dir2` placed as name `dir2`
under the root identifier. -/
def swapD : ActiveTT :=
  { nameInfo := [(strL "e-dir1", (strL "e-dir1/dir2", strL "dir1")),
                 (strL "e-dir1/dir2", (strL "e-.", strL "dir2"))],
    counter := 0, removeIds := [], newContentsPath := [],
    tempName := strL "transform-t" }

/-- The same state reached through the public API: two `set_name_info`
calls on the freshly entered transform. -/
def swapRecorded : Except Err TTState :=
  match TreeTransform.set_name_info
      (.active (TreeTransform.enterTT swapStore₀ (strL "transform-t")).2)
      (strL "e-dir1") (strL "e-dir1/dir2") (strL "dir1") with
  | .error e => .error e
  | .ok st₁ =>
    TreeTransform.set_name_info st₁ (strL "e-dir1/dir2") (strL "e-.")
      (strL "dir2")

/-- The rename plan the source generates for the swap (it matches
`test_generate_renames_dir_swap` exactly). -/
def swapPlan : List (PathStr × PathStr) :=
  [(strL "dir1/dir2", strL "transform-t/new/e-dir1/dir2"),
   (strL "dir1", strL "transform-t/new/e-dir1"),
   (strL "transform-t/new/e-dir1/dir2", strL "dir2"),
   (strL "transform-t/new/e-dir1", strL "dir2/dir1")]

/-- A cyclic name-info graph: `a`'s parent is `b` and `b`'s parent is `a`. -/
def cycNI : List (PathStr × (PathStr × PathStr)) :=
  [(strL "n-0-a", (strL "n-1-b", strL "a")),
   (strL "n-1-b", (strL "n-0-a", strL "b"))]

/-- An acyclic one-step name-info graph (for the termination witness). -/
def chainNI : List (PathStr × (PathStr × PathStr)) :=
  [(strL "n-0-a", (strL "e-x", strL "a"))]

/-- An active state whose relocations have original paths `z` (one segment)
and `a/b` (two segments). -/
def rmDemo : ActiveTT :=
  { nameInfo := [(strL "e-z", (strL "e-.", strL "z")),
                 (strL "e-a/b", (strL "e-.", strL "c"))],
    counter := 0, removeIds := [], newContentsPath := [],
    tempName := strL "t" }

/-- Name-info whose two staged entries have final paths `a/b` (two
segments) and `z` (one segment). -/
def insNI : List (PathStr × (PathStr × PathStr)) :=
  [(strL "e-x", (strL "e-a", strL "b")),
   (strL "e-y", (strL "e-.", strL "z"))]

/-- Staged sources for `insNI`'s entries. -/
def insNCP : List (PathStr × PathStr) :=
  [(strL "e-x", strL "t/new/e-x"), (strL "e-y", strL "t/new/e-y")]

/-- An overlay store whose only overlay-resident key is `foo2` (a raw-string
sibling of `foo`, not a descendant). -/
def ovDemo : OverlayFS :=
  { base := [], overlay := [(strL "foo2", (some 384, Obj.blob [104]))],
    overlayContent := [strL "foo2"], renames := [] }

/-- A memory store holding directory `a` and a file `a/f` below it. -/
def memDemo : Store :=
  [(strL "a", (some 448, Obj.dir)),
   (strL "a/f", (some 384, Obj.blob [104]))]

/-- An active state in which `a/b/c` already has recorded name-info (set
directly, with a placement unrelated to its original location) while its
ancestors have none. -/
def acqDemo : ActiveTT :=
  { nameInfo := [(strL "e-a/b/c", (strL "e-.", strL "x"))],
    counter := 0, removeIds := [], newContentsPath := [],
    tempName := strL "t" }

/-- An overlay store whose only overlay-resident key is the true descendant
`foo/x` (for the rename-characterization witness). -/
def ovW : OverlayFS :=
  { base := [], overlay := [(strL "foo/x", (some 420, Obj.blob [1]))],
    overlayContent := [strL "foo/x"], renames := [] }

/-- A with-block: acquire `dir1`, record a placement, create a file, and
schedule a deletion (for the failure-atomicity witness). -/
def opsW : List TreeTransform.TOp :=
  [TreeTransform.TOp.acq (strL "dir1"),
   TreeTransform.TOp.setInfo (strL "e-dir1") (strL "e-.") (strL "dirX"),
   TreeTransform.TOp.createF (strL "f") (strL "e-.") [104, 105],
   TreeTransform.TOp.del (strL "e-dir1/dir2")]

/-! # Lemmas -/

/-! ## Dictionary lemmas -/

theorem dictLookup_dictSet {β : Type} (d : List (PathStr × β)) (k : PathStr)
    (v : β) (k' : PathStr) :
    dictLookup (dictSet d k v) k' =
      if k' = k then some v else dictLookup d k' := by
  induction d with
  | nil =>
    simp only [dictSet, dictLookup]
    split_ifs with h1 h2 h2
    · rfl
    · exact absurd h1.symm h2
    · exact absurd h2.symm h1
    · rfl
  | cons hd tl ih =>
    obtain ⟨k₀, v₀⟩ := hd
    by_cases h0 : k₀ = k
    · subst h0
      simp only [dictSet, if_pos rfl, dictLookup]
      split_ifs with h1 h2 h2
      · rfl
      · exact absurd h1.symm h2
      · exact absurd h2.symm h1
      · rfl
    · simp only [dictSet, if_neg h0, dictLookup, ih]
      split_ifs with h1 h2
      · exact absurd (h1.trans h2) h0
      · rfl
      · rfl
      · rfl

theorem dictLookup_dictErase {β : Type} (d : List (PathStr × β))
    (k k' : PathStr) :
    dictLookup (dictErase d k) k' =
      if k' = k then none else dictLookup d k' := by
  induction d with
  | nil => simp [dictErase, dictLookup]
  | cons hd tl ih =>
    obtain ⟨k₀, v₀⟩ := hd
    by_cases h0 : k₀ = k
    · subst h0
      rw [show dictErase ((k₀, v₀) :: tl) k₀ = dictErase tl k₀ from by
            simp [dictErase]]
      rw [ih]
      by_cases h1 : k' = k₀
      · rw [if_pos h1, if_pos h1]
      · rw [if_neg h1, if_neg h1]
        simp only [dictLookup]
        rw [if_neg (fun hh : k₀ = k' => h1 hh.symm)]
    · rw [show dictErase ((k₀, v₀) :: tl) k = (k₀, v₀) :: dictErase tl k from
            by simp [dictErase, h0]]
      simp only [dictLookup, ih]
      split_ifs with h1 h2
      · exact absurd (h1.trans h2) h0
      · rfl
      · rfl
      · rfl

theorem dictLookup_eq_none {β : Type} (d : List (PathStr × β)) (k : PathStr)
    (h : ∀ kv ∈ d, kv.1 ≠ k) : dictLookup d k = none := by
  induction d with
  | nil => rfl
  | cons hd tl ih =>
    simp only [dictLookup]
    rw [if_neg (h hd (by simp))]
    exact ih (fun kv hkv => h kv (by simp [hkv]))

theorem dictSet_append {β : Type} (l₁ l₂ : List (PathStr × β)) (k : PathStr)
    (v : β) (h : ∀ kv ∈ l₁, kv.1 ≠ k) :
    dictSet (l₁ ++ l₂) k v = l₁ ++ dictSet l₂ k v := by
  induction l₁ with
  | nil => rfl
  | cons hd tl ih =>
    simp only [List.cons_append, dictSet]
    rw [if_neg (h hd (by simp))]
    simp only [List.append_eq]
    rw [ih (fun kv hkv => h kv (by simp [hkv]))]

/-! ## Set lemmas -/

theorem mem_setAdd (s : List PathStr) (x y : PathStr) :
    y ∈ setAdd s x ↔ y = x ∨ y ∈ s := by
  unfold setAdd
  by_cases h : x ∈ s
  · simp only [if_pos h]
    constructor
    · intro hy; exact Or.inr hy
    · rintro (rfl | hy) <;> [exact h; exact hy]
  · simp [if_neg h]

theorem mem_setErase (s : List PathStr) (x y : PathStr) :
    y ∈ setErase s x ↔ y ∈ s ∧ y ≠ x := by
  simp [setErase]

/-! ## Lexicographic comparison lemmas -/

theorem pathLt_asymm (p q : PathStr) (h : pathLt p q = true) :
    pathLt q p = false := by
  induction p generalizing q with
  | nil =>
    cases q with
    | nil => simp [pathLt] at h
    | cons b bs => simp [pathLt]
  | cons a as ih =>
    cases q with
    | nil => simp [pathLt] at h
    | cons b bs =>
      simp only [pathLt] at h ⊢
      by_cases h1 : a.toNat < b.toNat
      · have h2 : ¬ b.toNat < a.toNat := by omega
        rw [if_neg h2, if_pos h1]
      · rw [if_neg h1] at h
        by_cases h2 : b.toNat < a.toNat
        · rw [if_pos h2] at h; exact absurd h (by simp)
        · rw [if_neg h2] at h
          rw [if_neg h2, if_neg h1]
          exact ih bs h

theorem pathLt_trans (p q r : PathStr) (h1 : pathLt p q = true)
    (h2 : pathLt q r = true) : pathLt p r = true := by
  induction p generalizing q r with
  | nil =>
    cases q with
    | nil => simp [pathLt] at h1
    | cons b bs =>
      cases r with
      | nil => simp [pathLt] at h2
      | cons c cs => simp [pathLt]
  | cons a as ih =>
    cases q with
    | nil => simp [pathLt] at h1
    | cons b bs =>
      cases r with
      | nil => simp [pathLt] at h2
      | cons c cs =>
        simp only [pathLt] at h1 h2 ⊢
        by_cases hab : a.toNat < b.toNat
        · by_cases hbc : b.toNat < c.toNat
          · rw [if_pos (by omega : a.toNat < c.toNat)]
          · rw [if_neg hbc] at h2
            by_cases hcb : c.toNat < b.toNat
            · rw [if_pos hcb] at h2; exact absurd h2 (by simp)
            · have : b.toNat = c.toNat := by omega
              rw [if_pos (by omega : a.toNat < c.toNat)]
        · rw [if_neg hab] at h1
          by_cases hba : b.toNat < a.toNat
          · rw [if_pos hba] at h1; exact absurd h1 (by simp)
          · rw [if_neg hba] at h1
            have hab' : a.toNat = b.toNat := by omega
            by_cases hbc : b.toNat < c.toNat
            · rw [if_pos (by omega : a.toNat < c.toNat)]
            · rw [if_neg hbc] at h2
              by_cases hcb : c.toNat < b.toNat
              · rw [if_pos hcb] at h2; exact absurd h2 (by simp)
              · rw [if_neg hcb] at h2
                rw [if_neg (by omega : ¬ a.toNat < c.toNat),
                    if_neg (by omega : ¬ c.toNat < a.toNat)]
                exact ih bs cs h1 h2

theorem pathLt_append_cons (p : PathStr) (c : Char) (r : PathStr) :
    pathLt p (p ++ c :: r) = true := by
  induction p with
  | nil => simp [pathLt]
  | cons a as ih =>
    simp only [List.cons_append, pathLt]
    rw [if_neg (by omega : ¬ a.toNat < a.toNat),
        if_neg (by omega : ¬ a.toNat < a.toNat)]
    exact ih

/-! ## Sort lemmas -/

theorem mem_insertBy {α : Type} (lt : α → α → Bool) (x : α) (l : List α)
    (y : α) : y ∈ insertBy lt x l ↔ y = x ∨ y ∈ l := by
  induction l with
  | nil => simp [insertBy]
  | cons z zs ih =>
    simp only [insertBy]
    by_cases h : lt x z = true
    · simp [h]
    · simp only [if_neg h, List.mem_cons, ih]
      tauto

theorem pairwise_insertBy {α : Type} (lt : α → α → Bool)
    (hasymm : ∀ a b, lt a b = true → lt b a = false)
    (htrans : ∀ a b c, lt a b = true → lt b c = true → lt a c = true)
    (x : α) (l : List α) (h : l.Pairwise (fun a b => lt b a = false)) :
    (insertBy lt x l).Pairwise (fun a b => lt b a = false) := by
  induction l with
  | nil => simp [insertBy]
  | cons y ys ih =>
    rcases List.pairwise_cons.mp h with ⟨hy, hys⟩
    simp only [insertBy]
    by_cases hxy : lt x y = true
    · rw [if_pos hxy]
      refine List.pairwise_cons.mpr ⟨?_, h⟩
      intro z hz
      rcases List.mem_cons.mp hz with rfl | hz'
      · exact hasymm _ _ hxy
      · by_contra hzx
        have hzx' : lt z x = true := by
          cases hh : lt z x with
          | true => rfl
          | false => exact absurd hh hzx
        exact absurd (hy z hz') (by simp [htrans _ _ _ hzx' hxy])
    · rw [if_neg hxy]
      refine List.pairwise_cons.mpr ⟨?_, ih hys⟩
      intro z hz
      rcases (mem_insertBy lt x ys z).mp hz with rfl | hz'
      · cases hh : lt z y with
        | true => exact absurd hh (by simp [hxy])
        | false => rfl
      · exact hy z hz'

theorem pairwise_sortBy {α : Type} (lt : α → α → Bool)
    (hasymm : ∀ a b, lt a b = true → lt b a = false)
    (htrans : ∀ a b c, lt a b = true → lt b c = true → lt a c = true)
    (l : List α) :
    (sortBy lt l).Pairwise (fun a b => lt b a = false) := by
  induction l with
  | nil => simp [sortBy]
  | cons x xs ih => exact pairwise_insertBy lt hasymm htrans x _ ih

/-! ## `startswith` lemmas -/

theorem startswith_iff (s pre : PathStr) :
    startswith s pre = true ↔ ∃ t, s = pre ++ t := by
  induction pre generalizing s with
  | nil => simp [startswith]
  | cons d ds ih =>
    cases s with
    | nil =>
      simp only [startswith]
      constructor
      · intro h; exact absurd h (by simp)
      · rintro ⟨t, ht⟩; exact absurd ht (by simp)
    | cons c cs =>
      simp only [startswith, Bool.and_eq_true, decide_eq_true_eq, ih]
      constructor
      · rintro ⟨rfl, t, rfl⟩; exact ⟨t, rfl⟩
      · rintro ⟨t, ht⟩
        injection ht with h1 h2
        exact ⟨h1, t, h2⟩

/-! ## Expected concrete outputs (spelled out, so the theorems below state
them explicitly) -/

/-- What the removal phase returns on `rmDemo`. -/
def rmDemoOut : List (PathStr × PathStr) :=
  [(strL "z", strL "t/new/e-z"), (strL "a/b", strL "t/new/e-a/b")]

/-- The staged-source map the removal phase returns on `rmDemo`. -/
def rmDemoNcp : List (PathStr × PathStr) :=
  [(strL "e-z", strL "t/new/e-z"), (strL "e-a/b", strL "t/new/e-a/b")]

/-- What the insertion phase returns on `insNI`/`insNCP`. -/
def insDemoOut : List (PathStr × PathStr) :=
  [(strL "t/new/e-x", strL "a/b"), (strL "t/new/e-y", strL "z")]

/-- The overlay state `rename('foo', 'bar')` produces from `ovDemo`. -/
def ovDemoOut : OverlayFS :=
  { base := [], overlay := [(strL "bar2", (some 384, Obj.blob [104]))],
    overlayContent := [strL "bar2"], renames := [(strL "bar", strL "foo")] }

/-- The store `rename('a', 'b')` produces from `memDemo`. -/
def memDemoOut : Store :=
  [(strL "a/f", (some 384, Obj.blob [104])), (strL "b", (some 448, Obj.dir))]

/-! # Theorems about the claims -/

/-- **C1**: in the tree `{dir1, dir1/dir2}`, recording the swap (dir1 as
name `dir1` under dir2's identifier, dir2 as name `dir2` under the root
identifier) produces exactly the plan of `test_generate_renames_dir_swap`,
but applying that plan to the tree is NOT possible: the very first rename
(`dir1/dir2` into its staged address `transform-t/new/e-dir1/dir2`) raises
`NoParent`, because the staged address's parent `transform-t/new/e-dir1`
does not exist.  The tree is left unchanged, so nothing becomes reachable at
`dir2/dir1` — the claimed cycle correctness fails on the code. -/
theorem c1_dir_swap_plan_unappliable :
    swapRecorded = .ok (.active swapD) ∧
    TreeTransform.tree_path_to_id (strL "dir1") = .ok (strL "e-dir1") ∧
    TreeTransform.tree_path_to_id (strL "dir1/dir2") =
      .ok (strL "e-dir1/dir2") ∧
    TreeTransform.generate_renames swapD 9 = some (.ok swapPlan) ∧
    StoreTree.apply_renames swapStore₁ swapPlan =
      (swapStore₁, some Err.noParent) ∧
    dictLookup swapStore₁ (strL "dir2/dir1") = none := by decide

/-- **C2** (counterexample): an active state whose relocations have original
paths `z` (one segment) and `a/b` (two segments) yields a removal list with
`z` first — the one-segment path precedes the two-segment path, so the list
is not ordered by descending structural depth. -/
theorem c2_counterexample :
    TreeTransform.generate_remove_renames rmDemo = .ok (rmDemoOut, rmDemoNcp) ∧
    ¬ (∀ i j : Fin rmDemoOut.length, i < j →
        segDepth (rmDemoOut.get j).1 ≤ segDepth (rmDemoOut.get i).1) := by
  decide

/-- **C7** (counterexample): staged entries with final paths `a/b` (two
segments) and `z` (one segment) yield an insertion list with `a/b` first —
not ordered by ascending structural depth. -/
theorem c7_counterexample :
    TreeTransform.generate_insert_renames insNI 5 insNCP =
      some (.ok insDemoOut) ∧
    ¬ (∀ i j : Fin insDemoOut.length, i < j →
        segDepth (insDemoOut.get i).2 ≤ segDepth (insDemoOut.get j).2) := by
  decide

/-- **C3** (counterexample): `rename('foo', 'bar')` relocates the overlay
key `foo2` (to `bar2`), although `foo2` does not have `foo` as a
path-segment-boundary ancestor — the raw string-prefix test mis-matches the
sibling, so the claim that such keys are left unchanged is false. -/
theorem c3_counterexample :
    OverlayFileStore.rename ovDemo (strL "foo") (strL "bar") =
      .ok ovDemoOut ∧
    strL "foo2" ∉ ovDemoOut.overlayContent ∧
    isSubpathB (strL "foo") (strL "foo2") = false := by decide

/-- **C4** (counterexample): on a `MemoryFileStore` holding directory `a`
and file `a/f`, `rename('a', 'b')` moves only the exact key `a`: nothing
appears at `b/f` and the descendant stays addressed at `a/f`. -/
theorem c4_counterexample :
    MemoryFileStore.rename memDemo (strL "a") (strL "b") = .ok memDemoOut ∧
    dictLookup memDemoOut (strL "b/f") = none ∧
    dictLookup memDemoOut (strL "a/f") = some (some 384, Obj.blob [104]) := by
  decide

/-- **C5** (counterexample): a successful scope exit whose apply raises
(the dir-swap plan) skips the cleanup: `__exit__` propagates `NoParent`
before the `rmtree` and the deactivation run, so the staging subtree
(`transform-t/new` is still present) survives and the transform stays
active. -/
theorem c5_counterexample :
    TreeTransform.exit_success swapStore₁ swapD 9 true =
      some ((swapStore₁, TTState.active swapD), some Err.noParent) ∧
    dictLookup swapStore₁ (strL "transform-t/new") =
      some (some 448, Obj.dir) := by decide

/-- On the cyclic graph `cycNI` the `get_final_path` recursion returns
within no amount of fuel. -/
theorem cyc_final_path_none (fuel : Nat) :
    TreeTransform.final_path_fuel cycNI fuel (strL "n-0-a") = none ∧
    TreeTransform.final_path_fuel cycNI fuel (strL "n-1-b") = none := by
  induction fuel with
  | zero => exact ⟨rfl, rfl⟩
  | succ n ih =>
    constructor
    · have ha : TreeTransform.final_path_fuel cycNI (n + 1) (strL "n-0-a") =
          (match TreeTransform.final_path_fuel cycNI n (strL "n-1-b") with
           | none => none
           | some (.error e) => some (.error e)
           | some (.ok pp) => some (.ok (osJoin pp (strL "a")))) := rfl
      rw [ha, ih.2]
    · have hb : TreeTransform.final_path_fuel cycNI (n + 1) (strL "n-1-b") =
          (match TreeTransform.final_path_fuel cycNI n (strL "n-0-a") with
           | none => none
           | some (.error e) => some (.error e)
           | some (.ok pp) => some (.ok (osJoin pp (strL "b")))) := rfl
      rw [hb, ih.1]

/-- **C6** (counterexample): after `set_name_info` calls that make `a`'s
parent `b` and `b`'s parent `a`, the `get_final_path` recursion never
terminates — plan generation does not "terminate and yield a plan" for
every name-info graph. -/
theorem c6_counterexample : ¬ TerminatesFinalPath cycNI (strL "n-0-a") := by
  rintro ⟨fuel, h⟩
  rw [(cyc_final_path_none fuel).1] at h
  exact absurd h (by simp)

/-- **C8** (counterexample): on an inactive transform,
`acquire_existing_id('.')` does not raise `NotPending` — it returns the
root identifier (the root test short-circuits the member access). -/
theorem c8_counterexample :
    TreeTransform.acquire_existing_id TTState.inactive (strL ".") =
      .ok (strL "e-.", TTState.inactive) := by decide

/-- **C9** (counterexample): when the acquired path (here `a/b/c`) already
has name-info recorded, `acquire_existing_id` returns immediately: its
ancestors `a` and `a/b` get no name-info, and the path's own entry keeps
whatever placement was recorded — the ancestor chain is not registered. -/
theorem c9_counterexample :
    TreeTransform.acquire_existing_id (TTState.active acqDemo)
      (strL "a/b/c") = .ok (strL "e-a/b/c", TTState.active acqDemo) ∧
    dictLookup acqDemo.nameInfo (strL "e-a") = none ∧
    dictLookup acqDemo.nameInfo (strL "e-a/b") = none := by decide

/-- **C10**: for every overlay state and path present (only) in the base,
`discard(path)` permanently shadows the base: a subsequent `read_content`
and `get_file_mode` raise `NoSuchFile` instead of falling through to the
base's still-present entry. -/
theorem c10_discard_shadows_base (st : OverlayFS) (p : PathStr) (e : Entry)
    (hbase : dictLookup st.base p = some e)
    (hnot : p ∉ st.overlayContent) :
    OverlayFileStore.read_content (OverlayFileStore.discard st p) p =
      .error Err.noSuchFile ∧
    OverlayFileStore.get_file_mode (OverlayFileStore.discard st p) p =
      .error Err.noSuchFile := by
  have hmem : p ∈ (OverlayFileStore.discard st p).overlayContent := by
    simp [OverlayFileStore.discard, mem_setAdd]
  have hover : dictLookup (OverlayFileStore.discard st p).overlay p = none := by
    simp [OverlayFileStore.discard, MemoryFileStore.discard,
          dictLookup_dictErase]
  constructor
  · simp only [OverlayFileStore.read_content, if_pos hmem,
               MemoryFileStore.read_content, hover]
  · simp only [OverlayFileStore.get_file_mode, if_pos hmem,
               MemoryFileStore.get_file_mode, hover]

/-- Witness for **C10** at a concrete overlay: base holds `x`, the overlay
is empty, and after `discard('x')` both reads fail `NoSuchFile`. -/
theorem c10_discard_shadows_base_witness :
    OverlayFileStore.read_content
      (OverlayFileStore.discard
        ⟨[(strL "x", (some 420, Obj.blob [1]))], [], [], []⟩ (strL "x"))
      (strL "x") = .error Err.noSuchFile ∧
    OverlayFileStore.get_file_mode
      (OverlayFileStore.discard
        ⟨[(strL "x", (some 420, Obj.blob [1]))], [], [], []⟩ (strL "x"))
      (strL "x") = .error Err.noSuchFile :=
  c10_discard_shadows_base
    ⟨[(strL "x", (some 420, Obj.blob [1]))], [], [], []⟩ (strL "x")
    (some 420, Obj.blob [1]) (by decide) (by decide)

/-- Sorted descending by first component implies a strict structural
ancestor (in first components) appears strictly after its descendant. -/
theorem pairwise_fst_desc_ancestor {l : List (PathStr × PathStr)}
    (hpw : l.Pairwise (fun a b => pathLt a.1 b.1 = false))
    (i j : Fin l.length) (hanc : StrictAncestor (l.get i).1 (l.get j).1) :
    (j : Nat) < (i : Nat) := by
  obtain ⟨r, hr⟩ := hanc
  have hlt : pathLt (l.get i).1 (l.get j).1 = true := by
    rw [hr]; exact pathLt_append_cons _ _ _
  by_contra hji
  rcases Nat.lt_or_ge (i : Nat) (j : Nat) with h2 | h2
  · have hfalse := (List.pairwise_iff_get.mp hpw) i j h2
    rw [hfalse] at hlt
    exact absurd hlt (by simp)
  · have hij : i = j :=
      Fin.ext (Nat.le_antisymm (Nat.le_of_not_lt hji) h2)
    subst hij
    have := congrArg List.length hr
    simp at this

/-- Sorted ascending by second component implies a strict structural
ancestor (in second components) appears strictly before its descendant. -/
theorem pairwise_snd_asc_ancestor {l : List (PathStr × PathStr)}
    (hpw : l.Pairwise (fun a b => pathLt b.2 a.2 = false))
    (i j : Fin l.length) (hanc : StrictAncestor (l.get i).2 (l.get j).2) :
    (i : Nat) < (j : Nat) := by
  obtain ⟨r, hr⟩ := hanc
  have hlt : pathLt (l.get i).2 (l.get j).2 = true := by
    rw [hr]; exact pathLt_append_cons _ _ _
  by_contra hij
  rcases Nat.lt_or_ge (j : Nat) (i : Nat) with h2 | h2
  · have hfalse := (List.pairwise_iff_get.mp hpw) j i h2
    rw [hfalse] at hlt
    exact absurd hlt (by simp)
  · have hije : i = j :=
      Fin.ext (Nat.le_antisymm h2 (Nat.le_of_not_lt hij))
    subst hije
    have := congrArg List.length hr
    simp at this

/-- **C2** (amended): the removal phase's list is sorted by the raw old-path
string, descending; consequently whenever one relocation's original path is
a strict structural ancestor of another's, the descendant's relocation
appears strictly before the ancestor's. -/
theorem c2_remove_phase_sorted (d : ActiveTT)
    (l ncp : List (PathStr × PathStr))
    (h : TreeTransform.generate_remove_renames d = .ok (l, ncp)) :
    l.Pairwise (fun a b => pathLt a.1 b.1 = false) ∧
    ∀ i j : Fin l.length,
      StrictAncestor (l.get i).1 (l.get j).1 → (j : Nat) < (i : Nat) := by
  have hsort : ∃ l₀, l = sortBy (fun a b => pathLt b.1 a.1) l₀ := by
    unfold TreeTransform.generate_remove_renames at h
    dsimp only [] at h
    cases h1 : TreeTransform.removeLoop1 d.newContentsPath d.removeIds
        (osJoin d.tempName (strL "new")) d.nameInfo d.newContentsPath with
    | error e => rw [h1] at h; exact absurd h (by simp)
    | ok pr =>
      obtain ⟨l₁, ncp₁⟩ := pr
      rw [h1] at h
      cases h2 : TreeTransform.removeLoop2 (osJoin d.tempName (strL "old"))
          d.removeIds with
      | error e => rw [h2] at h; exact absurd h (by simp)
      | ok l₂ =>
        rw [h2] at h
        simp only [Except.ok.injEq, Prod.mk.injEq] at h
        exact ⟨l₁ ++ l₂, h.1.symm⟩
  obtain ⟨l₀, rfl⟩ := hsort
  have hpw := pairwise_sortBy (fun a b => pathLt b.1 a.1)
    (by intro a b hab; exact pathLt_asymm _ _ hab)
    (by intro a b c hab hbc; exact pathLt_trans _ _ _ hbc hab) l₀
  exact ⟨hpw, fun i j hanc => pairwise_fst_desc_ancestor hpw i j hanc⟩

/-- Witness for **C2** at the `rmDemo` state. -/
theorem c2_remove_phase_sorted_witness :
    rmDemoOut.Pairwise (fun a b => pathLt a.1 b.1 = false) :=
  (c2_remove_phase_sorted rmDemo rmDemoOut rmDemoNcp (by decide)).1

/-- **C7** (amended): the insertion phase's list is sorted by the raw
final-path string, ascending; consequently whenever one entry's final path
is a strict structural ancestor of another's, the ancestor's insertion
appears strictly before the descendant's. -/
theorem c7_insert_phase_sorted (ni : List (PathStr × (PathStr × PathStr)))
    (fuel : Nat) (ncp : List (PathStr × PathStr))
    (l : List (PathStr × PathStr))
    (h : TreeTransform.generate_insert_renames ni fuel ncp =
           some (.ok l)) :
    l.Pairwise (fun a b => pathLt b.2 a.2 = false) ∧
    ∀ i j : Fin l.length,
      StrictAncestor (l.get i).2 (l.get j).2 → (i : Nat) < (j : Nat) := by
  have hsort : ∃ l₀, l = sortBy (fun a b => pathLt a.2 b.2) l₀ := by
    unfold TreeTransform.generate_insert_renames at h
    cases h1 : TreeTransform.insertLoop ni fuel ncp ni with
    | none => rw [h1] at h; exact absurd h (by simp)
    | some r =>
      cases r with
      | error e => rw [h1] at h; exact absurd h (by simp)
      | ok l₁ =>
        rw [h1] at h
        simp only [Option.some.injEq, Except.ok.injEq] at h
        exact ⟨l₁, h.symm⟩
  obtain ⟨l₀, rfl⟩ := hsort
  have hpw := pairwise_sortBy (fun a b => pathLt a.2 b.2)
    (by intro a b hab; exact pathLt_asymm _ _ hab)
    (by intro a b c hab hbc; exact pathLt_trans _ _ _ hab hbc) l₀
  exact ⟨hpw, fun i j hanc => pairwise_snd_asc_ancestor hpw i j hanc⟩

/-- Witness for **C7** at the `insNI`/`insNCP` state. -/
theorem c7_insert_phase_sorted_witness :
    insDemoOut.Pairwise (fun a b => pathLt b.2 a.2 = false) :=
  (c7_insert_phase_sorted insNI 5 insNCP insDemoOut (by decide)).1

/-- **C4** (amended): `MemoryFileStore.rename(old, new)` relocates exactly
the single entry stored at `old`: afterwards `new` holds that entry, `old`
holds nothing (when distinct from `new`), and every other key — descendants
of `old` included — is unchanged. -/
theorem c4_mem_rename_moves_single_key (m : Store) (old new : PathStr)
    (v : Entry) (h : dictLookup m old = some v) :
    MemoryFileStore.rename m old new =
      .ok (dictSet (dictErase m old) new v) ∧
    dictLookup (dictSet (dictErase m old) new v) new = some v ∧
    (∀ k, k ≠ old → k ≠ new →
      dictLookup (dictSet (dictErase m old) new v) k = dictLookup m k) ∧
    (old ≠ new → dictLookup (dictSet (dictErase m old) new v) old = none) := by
  refine ⟨?_, ?_, ?_, ?_⟩
  · simp [MemoryFileStore.rename, h]
  · rw [dictLookup_dictSet]; simp
  · intro k hko hkn
    rw [dictLookup_dictSet, if_neg hkn, dictLookup_dictErase, if_neg hko]
  · intro hne
    rw [dictLookup_dictSet, if_neg hne, dictLookup_dictErase, if_pos rfl]

/-- Witness for **C4** at the `memDemo` store. -/
theorem c4_mem_rename_moves_single_key_witness :
    MemoryFileStore.rename memDemo (strL "a") (strL "b") =
      .ok (dictSet (dictErase memDemo (strL "a")) (strL "b")
            (some 448, Obj.dir)) :=
  (c4_mem_rename_moves_single_key memDemo (strL "a") (strL "b")
    (some 448, Obj.dir) (by decide)).1

/-- **C6** (amended): when the recorded parent graph is well-founded
(witnessed by a rank function that decreases from every entry to its
non-root parent), the `get_final_path` recursion terminates for every
identifier; by `c6_counterexample` this fails for cyclic graphs, so no-
validation-at-set-time does not make plan generation total. -/
theorem c6_final_path_terminates_acyclic
    (ni : List (PathStr × (PathStr × PathStr))) (rank : PathStr → Nat)
    (hrank : ∀ fid pid nm, dictLookup ni fid = some (pid, nm) →
      pid ≠ strL "e-." → rank pid < rank fid) :
    ∀ fid, TerminatesFinalPath ni fid := by
  have main : ∀ fuel fid, rank fid < fuel →
      (TreeTransform.final_path_fuel ni fuel fid).isSome = true := by
    intro fuel
    induction fuel with
    | zero => intro fid hf; exact absurd hf (Nat.not_lt_zero _)
    | succ n ih =>
      intro fid hf
      cases hl : dictLookup ni fid with
      | none => simp [TreeTransform.final_path_fuel, hl]
      | some pr =>
        obtain ⟨pid, nm⟩ := pr
        by_cases hroot : pid = strL "e-."
        · simp [TreeTransform.final_path_fuel, hl, hroot]
        · have hrk : rank pid < n :=
            Nat.lt_of_lt_of_le (hrank fid pid nm hl hroot)
              (Nat.lt_succ_iff.mp hf)
          have hin := ih pid hrk
          simp only [TreeTransform.final_path_fuel, hl, if_neg hroot]
          cases hrec : TreeTransform.final_path_fuel ni n pid with
          | none => rw [hrec] at hin; exact absurd hin (by simp)
          | some r =>
            cases r with
            | error e => simp
            | ok pp => simp
  intro fid
  exact ⟨rank fid + 1, main (rank fid + 1) fid (Nat.lt_succ_self _)⟩

/-- Witness for **C6** on the acyclic graph `chainNI`. -/
theorem c6_final_path_terminates_acyclic_witness :
    TerminatesFinalPath chainNI (strL "n-0-a") :=
  c6_final_path_terminates_acyclic chainNI
    (fun fid => if fid = strL "e-x" then 0 else 1)
    (by
      intro fid pid nm h hroot
      simp only [chainNI, dictLookup] at h
      split_ifs at h with hf
      simp only [Option.some.injEq, Prod.mk.injEq] at h
      obtain ⟨h1, h2⟩ := h
      subst h1
      rw [show fid = strL "n-0-a" from hf.symm]
      decide)
    (strL "n-0-a")

/-- **C8** (amended): on an inactive transform, `make_new_id`,
`set_name_info`, `get_name`, `get_parent`, `get_final_path`, `create_file`
and `delete` all fail with `NotPending` (and return no new state);
`acquire_existing_id` also fails with `NotPending` for every path other
than the raw root spellings `'.'`/`''` (which succeed, see
`c8_counterexample`) and paths normalizing outside the tree (which raise
`ValueError`). -/
theorem c8_inactive_ops_raise :
    (∀ nm, TreeTransform.make_new_id TTState.inactive nm =
      .error Err.notPending) ∧
    (∀ fid pid nm, TreeTransform.set_name_info TTState.inactive fid pid nm =
      .error Err.notPending) ∧
    (∀ fid, TreeTransform.get_name TTState.inactive fid =
      .error Err.notPending) ∧
    (∀ fid, TreeTransform.get_parent TTState.inactive fid =
      .error Err.notPending) ∧
    (∀ fuel fid, TreeTransform.get_final_path TTState.inactive fuel fid =
      some (.error Err.notPending)) ∧
    (∀ m nm pid data, TreeTransform.create_file m TTState.inactive nm pid
      data = .error Err.notPending) ∧
    (∀ fid, TreeTransform.delete TTState.inactive fid =
      .error Err.notPending) ∧
    (∀ p, p ≠ strL "." → p ≠ [] →
      startswith (normpath p) (strL "..") = false →
      TreeTransform.acquire_existing_id TTState.inactive p =
        .error Err.notPending) := by
  refine ⟨fun nm => rfl, fun fid pid nm => rfl, fun fid => rfl,
          fun fid => rfl, fun fuel fid => rfl, fun m nm pid data => rfl,
          fun fid => rfl, ?_⟩
  intro p h1 h2 h3
  show TreeTransform.acquire_existing_aux (p.length + 1) TTState.inactive p =
    .error Err.notPending
  simp only [TreeTransform.acquire_existing_aux, TreeTransform.tree_path_to_id,
             h3]
  simp [h1, h2]

/-- Witness for **C8** at the in-tree path `foo`. -/
theorem c8_inactive_ops_raise_witness :
    TreeTransform.acquire_existing_id TTState.inactive (strL "foo") =
      .error Err.notPending :=
  c8_inactive_ops_raise.2.2.2.2.2.2.2 (strL "foo") (by decide) (by decide)
    (by decide)

/-- The overlay rename loop, characterized: assuming the snapshot is
duplicate-free, every matched key has overlay content, and no relocated
image collides with a snapshot key, the loop succeeds, and a key is in the
final membership set exactly when it is an untouched original (not matched,
or not in the snapshot) or the image of a matched snapshot key. -/
theorem renameLoop_spec (old new : PathStr) :
    ∀ (todo s : List PathStr) (ov : Store),
      todo.Nodup →
      (∀ k, k ∈ todo → k.take old.length = old →
        (dictLookup ov k).isSome = true) →
      (∀ k, k ∈ todo → k.take old.length = old → k ∈ s) →
      (∀ k, k ∈ todo → k.take old.length = old →
        ∀ k2, k2 ∈ todo → renamedKey old new k ≠ k2) →
      ∃ s' ov',
        OverlayFileStore.renameLoop old new todo (s, ov) = .ok (s', ov') ∧
        ∀ x, x ∈ s' ↔
          ((x ∈ s ∧ ¬ (x.take old.length = old ∧ x ∈ todo)) ∨
           ∃ k, k ∈ todo ∧ k.take old.length = old ∧
             x = renamedKey old new k) := by
  intro todo
  induction todo with
  | nil =>
    intro s ov _ _ _ _
    refine ⟨s, ov, rfl, ?_⟩
    intro x
    simp
  | cons k ks ih =>
    intro s ov hnd hdom hmem hfresh
    obtain ⟨hknotin, hndks⟩ := List.nodup_cons.mp hnd
    by_cases hm : k.take old.length = old
    · have hks : k ∈ s := hmem k (by simp) hm
      have hdk := hdom k (by simp) hm
      obtain ⟨v, hv⟩ : ∃ v, dictLookup ov k = some v := by
        cases hvv : dictLookup ov k with
        | none => rw [hvv] at hdk; exact absurd hdk (by simp)
        | some v => exact ⟨v, rfl⟩
      have hren : MemoryFileStore.rename ov k (renamedKey old new k) =
          .ok (dictSet (dictErase ov k) (renamedKey old new k) v) := by
        simp [MemoryFileStore.rename, hv]
      have hnk_not_todo : ∀ k2, k2 ∈ k :: ks → renamedKey old new k ≠ k2 :=
        fun k2 hk2 => hfresh k (by simp) hm k2 hk2
      have hdom' : ∀ k', k' ∈ ks → k'.take old.length = old →
          (dictLookup (dictSet (dictErase ov k) (renamedKey old new k) v)
            k').isSome = true := by
        intro k' hk' hm'
        rw [dictLookup_dictSet]
        by_cases he : k' = renamedKey old new k
        · exact absurd he.symm (hnk_not_todo k' (by simp [hk']))
        · rw [if_neg he, dictLookup_dictErase,
              if_neg (fun hc : k' = k => hknotin (hc ▸ hk'))]
          exact hdom k' (by simp [hk']) hm'
      have hmem' : ∀ k', k' ∈ ks → k'.take old.length = old →
          k' ∈ setAdd (setErase s k) (renamedKey old new k) := by
        intro k' hk' hm'
        rw [mem_setAdd, mem_setErase]
        exact Or.inr ⟨hmem k' (by simp [hk']) hm',
                      fun hc => hknotin (hc ▸ hk')⟩
      have hfresh' : ∀ k', k' ∈ ks → k'.take old.length = old →
          ∀ k2, k2 ∈ ks → renamedKey old new k' ≠ k2 :=
        fun k' hk' hm' k2 hk2 =>
          hfresh k' (by simp [hk']) hm' k2 (by simp [hk2])
      obtain ⟨s', ov', heq, hiff⟩ :=
        ih (setAdd (setErase s k) (renamedKey old new k))
          (dictSet (dictErase ov k) (renamedKey old new k) v)
          hndks hdom' hmem' hfresh'
      refine ⟨s', ov', ?_, ?_⟩
      · show OverlayFileStore.renameLoop old new (k :: ks) (s, ov) = _
        simp only [OverlayFileStore.renameLoop]
        rw [if_neg (show ¬ k.take old.length ≠ old from fun hc => hc hm)]
        rw [show MemoryFileStore.rename ov k (new ++ k.drop old.length) =
              .ok (dictSet (dictErase ov k) (renamedKey old new k) v) from
              hren]
        exact heq
      · intro x
        rw [hiff x, mem_setAdd, mem_setErase]
        constructor
        · rintro (⟨hx2, hnot⟩ | ⟨k0, hk0, hm0, rfl⟩)
          · rcases hx2 with heq2 | ⟨hxs, hxk⟩
            · subst heq2
              exact Or.inr ⟨k, by simp, hm, rfl⟩
            · refine Or.inl ⟨hxs, ?_⟩
              rintro ⟨hmx, hxin⟩
              rcases List.mem_cons.mp hxin with rfl | hxks
              · exact hxk rfl
              · exact hnot ⟨hmx, hxks⟩
          · exact Or.inr ⟨k0, by simp [hk0], hm0, rfl⟩
        · rintro (⟨hxs, hnot⟩ | ⟨k0, hk0, hm0, rfl⟩)
          · have hxk : x ≠ k := by
              intro hc
              subst hc
              exact hnot ⟨hm, by simp⟩
            refine Or.inl ⟨Or.inr ⟨hxs, hxk⟩, ?_⟩
            rintro ⟨hmx, hxks⟩
            exact hnot ⟨hmx, by simp [hxks]⟩
          · rcases List.mem_cons.mp hk0 with rfl | hk0ks
            · refine Or.inl ⟨Or.inl rfl, ?_⟩
              rintro ⟨hmx, hxks⟩
              exact hnk_not_todo _ (by simp [hxks]) rfl
            · exact Or.inr ⟨k0, hk0ks, hm0, rfl⟩
    · -- not matched: the loop skips the key
      obtain ⟨s', ov', heq, hiff⟩ := ih s ov hndks
        (fun k' hk' hm' => hdom k' (by simp [hk']) hm')
        (fun k' hk' hm' => hmem k' (by simp [hk']) hm')
        (fun k' hk' hm' k2 hk2 =>
          hfresh k' (by simp [hk']) hm' k2 (by simp [hk2]))
      refine ⟨s', ov', ?_, ?_⟩
      · show OverlayFileStore.renameLoop old new (k :: ks) (s, ov) = _
        simp only [OverlayFileStore.renameLoop]
        rw [if_pos hm]
        exact heq
      · intro x
        rw [hiff x]
        constructor
        · rintro (⟨hxs, hnot⟩ | ⟨k0, hk0, hm0, rfl⟩)
          · refine Or.inl ⟨hxs, ?_⟩
            rintro ⟨hmx, hxin⟩
            rcases List.mem_cons.mp hxin with rfl | hxks
            · exact hm hmx
            · exact hnot ⟨hmx, hxks⟩
          · exact Or.inr ⟨k0, by simp [hk0], hm0, rfl⟩
        · rintro (⟨hxs, hnot⟩ | ⟨k0, hk0, hm0, rfl⟩)
          · refine Or.inl ⟨hxs, ?_⟩
            rintro ⟨hmx, hxks⟩
            exact hnot ⟨hmx, by simp [hxks]⟩
          · rcases List.mem_cons.mp hk0 with rfl | hk0ks
            · exact absurd hm0 hm
            · exact Or.inr ⟨k0, hk0ks, hm0, rfl⟩

/-- **C3** (amended): a successful `OverlayFileStore.rename(old, new)`
relocates exactly those overlay-resident keys that have `old` as a raw
string prefix (each moved to `new` plus the remaining suffix) — not only the
path-segment-boundary descendants.  Stated for overlay states whose
membership set is duplicate-free, has overlay content behind every matched
key, and whose relocated images are fresh. -/
theorem c3_overlay_rename_raw_string_prefix (st : OverlayFS)
    (old new : PathStr) (st' : OverlayFS)
    (hnd : st.overlayContent.Nodup)
    (hdom : ∀ k, k ∈ st.overlayContent → k.take old.length = old →
      (dictLookup st.overlay k).isSome = true)
    (hfresh : ∀ k, k ∈ st.overlayContent → k.take old.length = old →
      ∀ k2, k2 ∈ st.overlayContent → renamedKey old new k ≠ k2)
    (heq : OverlayFileStore.rename st old new = .ok st') :
    ∀ x, x ∈ st'.overlayContent ↔
      ((x ∈ st.overlayContent ∧ ¬ x.take old.length = old) ∨
       ∃ k, k ∈ st.overlayContent ∧ k.take old.length = old ∧
         x = renamedKey old new k) := by
  obtain ⟨s', ov', hloop, hiff⟩ := renameLoop_spec old new st.overlayContent
    st.overlayContent st.overlay hnd hdom (fun k hk _ => hk) hfresh
  have hst' : st'.overlayContent = s' := by
    unfold OverlayFileStore.rename at heq
    rw [hloop] at heq
    simp only [Except.ok.injEq] at heq
    rw [← heq]
  intro x
  rw [hst', hiff x]
  constructor
  · rintro (⟨hxs, hnot⟩ | hex)
    · exact Or.inl ⟨hxs, fun hmx => hnot ⟨hmx, hxs⟩⟩
    · exact Or.inr hex
  · rintro (⟨hxs, hnot⟩ | hex)
    · exact Or.inl ⟨hxs, fun hc => hnot hc.1⟩
    · exact Or.inr hex

/-- Witness for **C3** at a one-key overlay (`foo/x`, renamed under
`foo → bar`). -/
theorem c3_overlay_rename_raw_string_prefix_witness :
    strL "bar/x" ∈
        (OverlayFS.mk [] [(strL "bar/x", (some 420, Obj.blob [1]))]
          [strL "bar/x"] [(strL "bar", strL "foo")]).overlayContent ↔
      ((strL "bar/x" ∈ ovW.overlayContent ∧
          ¬ (strL "bar/x").take (strL "foo").length = strL "foo") ∨
       ∃ k, k ∈ ovW.overlayContent ∧
         k.take (strL "foo").length = strL "foo" ∧
         strL "bar/x" = renamedKey (strL "foo") (strL "bar") k) :=
  c3_overlay_rename_raw_string_prefix ovW (strL "foo") (strL "bar")
    (OverlayFS.mk [] [(strL "bar/x", (some 420, Obj.blob [1]))]
      [strL "bar/x"] [(strL "bar", strL "foo")])
    (by decide)
    (by
      intro k hk hmk
      simp only [ovW, List.mem_singleton] at hk
      subst hk
      decide)
    (by
      intro k hk hmk k2 hk2
      simp only [ovW, List.mem_singleton] at hk hk2
      subst hk
      subst hk2
      decide)
    (by decide)
    (strL "bar/x")

/-! ## Support lemmas for the scope-atomicity theorem -/

theorem mem_dictSet {β : Type} (d : List (PathStr × β)) (k : PathStr) (v : β) :
    ∀ kv ∈ dictSet d k v, kv = (k, v) ∨ kv ∈ d := by
  induction d with
  | nil => intro kv hkv; simp [dictSet] at hkv; simp [hkv]
  | cons hd tl ih =>
    intro kv hkv
    obtain ⟨k₀, v₀⟩ := hd
    by_cases h0 : k₀ = k
    · rw [show dictSet ((k₀, v₀) :: tl) k v = (k, v) :: tl from by
            simp [dictSet, h0]] at hkv
      rcases List.mem_cons.mp hkv with rfl | h
      · exact Or.inl rfl
      · exact Or.inr (by simp [h])
    · rw [show dictSet ((k₀, v₀) :: tl) k v = (k₀, v₀) :: dictSet tl k v from
            by simp [dictSet, h0]] at hkv
      rcases List.mem_cons.mp hkv with rfl | h
      · exact Or.inr (by simp)
      · rcases ih kv h with h1 | h1
        · exact Or.inl h1
        · exact Or.inr (by simp [h1])

theorem dictSet_fresh {β : Type} (d : List (PathStr × β)) (k : PathStr)
    (v : β) (h : ∀ kv ∈ d, kv.1 ≠ k) : dictSet d k v = d ++ [(k, v)] := by
  calc dictSet d k v = dictSet (d ++ []) k v := by rw [List.append_nil]
    _ = d ++ dictSet [] k v := dictSet_append d [] k v h
    _ = d ++ [(k, v)] := rfl

theorem startswith_append_self (pre t : PathStr) :
    startswith (pre ++ t) pre = true :=
  (startswith_iff _ _).mpr ⟨t, rfl⟩

theorem isSubpathB_self (p : PathStr) : isSubpathB p p = true := by
  simp [isSubpathB]

theorem isSubpathB_append (sup t : PathStr) :
    isSubpathB sup (sup ++ '/' :: t) = true := by
  unfold isSubpathB
  rw [show sup ++ '/' :: t = (sup ++ ['/']) ++ t from by simp]
  rw [startswith_append_self]
  simp

theorem getLast?_mem_of (l : PathStr) (a : Char) (h : l.getLast? = some a) :
    a ∈ l := by
  induction l with
  | nil => simp [List.getLast?] at h
  | cons b t ih =>
    cases t with
    | nil => simp [List.getLast?] at h; simp [h]
    | cons c t2 =>
      rw [List.getLast?_cons_cons] at h
      exact List.mem_cons_of_mem _ (ih h)

theorem osJoin_cons (a b : PathStr) (ha : a ≠ [])
    (hla : a.getLast? ≠ some '/') (hb : b.head? ≠ some '/') :
    osJoin a b = a ++ '/' :: b := by
  unfold osJoin
  rw [if_neg hb, if_neg (by
    rintro (rfl | hc)
    · exact ha rfl
    · exact hla hc)]

theorem ne_append_cons (a : PathStr) (c : Char) (x : PathStr) :
    a ≠ a ++ c :: x := by
  intro hc
  have := congrArg List.length hc
  simp at this

/-- A staged-content key `<temp>/new/<id>` is a subpath of the staging
root, for staging names without separators and ids not starting with one. -/
theorem subpath_join_new (tname fid : PathStr) (h1 : tname ≠ [])
    (h2 : '/' ∉ tname) (hf : fid.head? ≠ some '/') :
    isSubpathB tname (osJoin (osJoin tname (strL "new")) fid) = true := by
  have hlast : tname.getLast? ≠ some '/' :=
    fun hc => h2 (getLast?_mem_of tname '/' hc)
  rw [osJoin_cons tname (strL "new") h1 hlast (by decide)]
  rw [osJoin_cons (tname ++ '/' :: strL "new") fid
        (by simp) (by rw [List.getLast?_append_cons]; decide) hf]
  rw [show (tname ++ '/' :: strL "new") ++ '/' :: fid =
        tname ++ '/' :: (strL "new" ++ '/' :: fid) from by simp]
  exact isSubpathB_append tname _

/-- A successful `StoreTree` write is exactly a store update at that key. -/
theorem write_content_ok (m : Store) (p : PathStr) (mode : Option Nat)
    (data : List Nat) (m' : Store)
    (h : StoreTree.write_content m p mode data = .ok m') :
    m' = dictSet m p (mode, Obj.blob data) := by
  unfold StoreTree.write_content at h
  cases hrp : StoreTree.require_parent m p with
  | error e => rw [hrp] at h; exact absurd h (by simp)
  | ok u =>
    rw [hrp] at h
    simp only [Except.ok.injEq] at h
    rw [← h]
    rfl

/-- `create_file` on an active transform either raises (leaving the store
alone) or writes the staged content of a fresh `n-` id at
`<temp>/new/<id>` and stays active with the same staging name. -/
theorem create_file_spec (m : Store) (d : ActiveTT) (nm pid : PathStr)
    (data : List Nat) :
    (∃ e, TreeTransform.create_file m (TTState.active d) nm pid data =
      .error e) ∨
    (∃ fid d₂ m',
      TreeTransform.create_file m (TTState.active d) nm pid data =
        .ok (fid, TTState.active d₂, m') ∧
      StoreTree.write_content m (osJoin (osJoin d.tempName (strL "new")) fid)
        none data = .ok m' ∧
      d₂.tempName = d.tempName ∧
      fid = strL "n-" ++ natToChars d.counter ++ '-' :: nm) := by
  unfold TreeTransform.create_file TreeTransform.make_new_id
    TreeTransform.set_name_info
  dsimp only
  cases hw : StoreTree.write_content m
      (osJoin (osJoin d.tempName (strL "new"))
        (strL "n-" ++ natToChars d.counter ++ '-' :: nm)) none data with
  | error e => exact Or.inl ⟨e, rfl⟩
  | ok m' =>
    exact Or.inr ⟨strL "n-" ++ natToChars d.counter ++ '-' :: nm, _, m',
      rfl, hw, rfl, rfl⟩

/-- The head of a minted `n-` identifier. -/
theorem head?_new_id (c : Nat) (nm : PathStr) :
    (strL "n-" ++ natToChars c ++ '-' :: nm).head? = some 'n' := rfl

/-- A successful `acquire_existing_id` run keeps the staging name: whenever
it returns an active state, the input was active with the same
`tempName`. -/
theorem acquire_aux_temp (fuel : Nat) :
    ∀ (st : TTState) (p fid : PathStr) (st' : TTState),
      TreeTransform.acquire_existing_aux fuel st p = .ok (fid, st') →
      ∀ d', st' = TTState.active d' →
        ∃ d, st = TTState.active d ∧ d'.tempName = d.tempName := by
  induction fuel with
  | zero =>
    intro st p fid st' h
    exact absurd h (by simp [TreeTransform.acquire_existing_aux])
  | succ n ih =>
    intro st p fid st' h d' hst'
    simp only [TreeTransform.acquire_existing_aux] at h
    cases htp : TreeTransform.tree_path_to_id p with
    | error e => rw [htp] at h; exact absurd h (by simp)
    | ok fid0 =>
      rw [htp] at h
      dsimp only at h
      by_cases hroot : p = strL "." ∨ p = []
      · rw [if_pos hroot] at h
        simp only [Except.ok.injEq, Prod.mk.injEq] at h
        obtain ⟨-, h2⟩ := h
        exact ⟨d', by rw [h2]; exact hst', rfl⟩
      · rw [if_neg hroot] at h
        cases st with
        | inactive => exact absurd h (by simp)
        | active d =>
          dsimp only at h
          by_cases hlook : (dictLookup d.nameInfo fid0).isSome = true
          · rw [if_pos hlook] at h
            simp only [Except.ok.injEq, Prod.mk.injEq] at h
            obtain ⟨-, h2⟩ := h
            have hda : TTState.active d = TTState.active d' := by
              rw [h2]; exact hst'
            injection hda with hda'
            exact ⟨d, rfl, by rw [← hda']⟩
          · rw [if_neg hlook] at h
            cases hrec : TreeTransform.acquire_existing_aux n
                (TTState.active d) (osSplit p).1 with
            | error e => rw [hrec] at h; exact absurd h (by simp)
            | ok pr =>
              obtain ⟨pid, st₁⟩ := pr
              rw [hrec] at h
              dsimp only at h
              cases st₁ with
              | inactive =>
                exact absurd h (by simp [TreeTransform.set_name_info])
              | active d₁ =>
                simp only [TreeTransform.set_name_info, Except.ok.injEq,
                           Prod.mk.injEq] at h
                obtain ⟨-, h2⟩ := h
                obtain ⟨dm, hdm, htmp⟩ := ih (TTState.active d)
                  (osSplit p).1 pid (TTState.active d₁) hrec d₁ rfl
                injection hdm with hdm'
                have hd2 : TTState.active
                    { d₁ with nameInfo :=
                        dictSet d₁.nameInfo fid0 (pid, (osSplit p).2) } =
                      TTState.active d' := by
                  rw [h2]; exact hst'
                injection hd2 with hd3
                refine ⟨d, rfl, ?_⟩
                rw [← hd3]
                show d₁.tempName = d.tempName
                rw [htmp, ← hdm']

/-- A single with-block operation leaves the store alone or updates one key
inside the staging subtree, and keeps the staging name of an active
state. -/
theorem stepOp_extends (tname : PathStr) (h1 : tname ≠ [])
    (h2 : '/' ∉ tname) (op : TreeTransform.TOp) (m : Store) (st : TTState)
    (hst : ∀ d, st = TTState.active d → d.tempName = tname) :
    ((TreeTransform.stepOp op m st).1.1 = m ∨
     ∃ key v, isSubpathB tname key = true ∧
       (TreeTransform.stepOp op m st).1.1 = dictSet m key v) ∧
    (∀ d', (TreeTransform.stepOp op m st).1.2 = TTState.active d' →
       d'.tempName = tname) := by
  cases op with
  | acq p =>
    simp only [TreeTransform.stepOp]
    cases hacq : TreeTransform.acquire_existing_id st p with
    | error e => exact ⟨Or.inl rfl, fun d' hd' => hst d' hd'⟩
    | ok pr =>
      obtain ⟨fid, st'⟩ := pr
      refine ⟨Or.inl rfl, ?_⟩
      intro d' hd'
      obtain ⟨d, hd, htemp⟩ :=
        acquire_aux_temp (p.length + 1) st p fid st' hacq d' hd'
      rw [htemp]
      exact hst d hd
  | newId nm =>
    cases st with
    | inactive => exact ⟨Or.inl rfl, fun d' hd' => hst d' hd'⟩
    | active d =>
      refine ⟨Or.inl rfl, ?_⟩
      intro d' hd'
      have hd2 : TTState.active { d with counter := d.counter + 1 } =
          TTState.active d' := hd'
      injection hd2 with hd3
      rw [← hd3]
      exact hst d rfl
  | setInfo fid pid nm =>
    cases st with
    | inactive => exact ⟨Or.inl rfl, fun d' hd' => hst d' hd'⟩
    | active d =>
      refine ⟨Or.inl rfl, ?_⟩
      intro d' hd'
      have hd2 : TTState.active
          { d with nameInfo := dictSet d.nameInfo fid (pid, nm) } =
            TTState.active d' := hd'
      injection hd2 with hd3
      rw [← hd3]
      exact hst d rfl
  | del fid =>
    cases st with
    | inactive => exact ⟨Or.inl rfl, fun d' hd' => hst d' hd'⟩
    | active d =>
      refine ⟨Or.inl rfl, ?_⟩
      intro d' hd'
      have hd2 : TTState.active
          { d with removeIds := setAdd d.removeIds fid } =
            TTState.active d' := hd'
      injection hd2 with hd3
      rw [← hd3]
      exact hst d rfl
  | createF nm pid data =>
    cases st with
    | inactive => exact ⟨Or.inl rfl, fun d' hd' => hst d' hd'⟩
    | active d =>
      rcases create_file_spec m d nm pid data with ⟨e, hcf⟩ |
        ⟨fid, d₂, m', hcf, hw, htemp, hfid⟩
      · have hs : TreeTransform.stepOp (TreeTransform.TOp.createF nm pid
            data) m (TTState.active d) = ((m, TTState.active d), some e) := by
          simp only [TreeTransform.stepOp, hcf]
        rw [hs]
        refine ⟨Or.inl rfl, ?_⟩
        intro d' hd'
        injection hd' with hd3
        rw [← hd3]
        exact hst d rfl
      · have hs : TreeTransform.stepOp (TreeTransform.TOp.createF nm pid
            data) m (TTState.active d) = ((m', TTState.active d₂), none) := by
          simp only [TreeTransform.stepOp, hcf]
        rw [hs]
        constructor
        · right
          refine ⟨osJoin (osJoin d.tempName (strL "new")) fid,
            (none, Obj.blob data), ?_, ?_⟩
          · rw [hst d rfl]
            refine subpath_join_new tname fid h1 h2 ?_
            rw [hfid, head?_new_id]
            decide
          · exact write_content_ok m _ none data m' hw
        · intro d' hd'
          injection hd' with hd3
          rw [← hd3, htemp]
          exact hst d rfl

/-- Running a with-block only ever extends the store with entries inside
the staging subtree. -/
theorem runOps_extends (tname : PathStr) (h1 : tname ≠ [])
    (h2 : '/' ∉ tname) (m₀ : Store)
    (hfresh : ∀ kv ∈ m₀, isSubpathB tname kv.1 = false) :
    ∀ (ops : List TreeTransform.TOp) (m : Store) (st : TTState)
      (extra : Store),
      m = m₀ ++ extra →
      (∀ kv ∈ extra, isSubpathB tname kv.1 = true) →
      (∀ d, st = TTState.active d → d.tempName = tname) →
      ∃ extra', (TreeTransform.runOps ops (m, st)).1.1 = m₀ ++ extra' ∧
        ∀ kv ∈ extra', isSubpathB tname kv.1 = true := by
  intro ops
  induction ops with
  | nil => intro m st extra hm hex _; exact ⟨extra, hm, hex⟩
  | cons op ops ih =>
    intro m st extra hm hex hst
    obtain ⟨hstore, hstate⟩ := stepOp_extends tname h1 h2 op m st hst
    cases hr : TreeTransform.stepOp op m st with
    | mk s' e? =>
      obtain ⟨m₁, st₁⟩ := s'
      rw [hr] at hstore hstate
      dsimp only at hstore hstate
      have hm₁ : ∃ extra₁, m₁ = m₀ ++ extra₁ ∧
          ∀ kv ∈ extra₁, isSubpathB tname kv.1 = true := by
        rcases hstore with hsame | ⟨key, v, hsub, hset⟩
        · exact ⟨extra, by rw [hsame, hm], hex⟩
        · refine ⟨dictSet extra key v, ?_, ?_⟩
          · rw [hset, hm,
                dictSet_append m₀ extra key v (fun kv hkv hc => by
                  have hkv2 := hfresh kv hkv
                  rw [hc, hsub] at hkv2
                  exact absurd hkv2 (by simp))]
          · intro kv hkv
            rcases mem_dictSet extra key v kv hkv with rfl | hin
            · exact hsub
            · exact hex kv hin
      obtain ⟨extra₁, hm₁eq, hex₁⟩ := hm₁
      cases e? with
      | none =>
        rw [show TreeTransform.runOps (op :: ops) (m, st) =
              TreeTransform.runOps ops (m₁, st₁) from by
            simp only [TreeTransform.runOps, hr]]
        exact ih m₁ st₁ extra₁ hm₁eq hex₁ hstate
      | some e =>
        rw [show TreeTransform.runOps (op :: ops) (m, st) =
              ((m₁, st₁), some e) from by
            simp only [TreeTransform.runOps, hr]]
        exact ⟨extra₁, hm₁eq, hex₁⟩

/-- **C5** (amended): for every backing store, fresh staging name and
with-block, a scope that exits with an exception leaves the store literally
identical to its pre-entry state (placements, staged creations and
scheduled deletions are all discarded), deletes the whole staging subtree
(nothing remains at any staging subpath), and returns the transform to the
inactive state. -/
theorem c5_scope_exception_atomic (m₀ : Store) (tname : PathStr)
    (ops : List TreeTransform.TOp) (h1 : tname ≠ []) (h2 : '/' ∉ tname)
    (hfresh : ∀ kv ∈ m₀, isSubpathB tname kv.1 = false) :
    TreeTransform.run_scope_exception m₀ tname ops =
      (m₀, TTState.inactive) ∧
    ∀ p, isSubpathB tname p = true →
      dictLookup (TreeTransform.run_scope_exception m₀ tname ops).1 p =
        none := by
  have hneSub : ∀ (x : PathStr), isSubpathB tname x = true →
      ∀ kv ∈ m₀, kv.1 ≠ x := by
    intro x hx kv hkv hc
    have hkv2 := hfresh kv hkv
    rw [hc, hx] at hkv2
    exact absurd hkv2 (by simp)
  have hlast : tname.getLast? ≠ some '/' :=
    fun hc => h2 (getLast?_mem_of _ _ hc)
  have hjn : osJoin tname (strL "new") = tname ++ '/' :: strL "new" :=
    osJoin_cons _ _ h1 hlast (by decide)
  have hjo : osJoin tname (strL "old") = tname ++ '/' :: strL "old" :=
    osJoin_cons _ _ h1 hlast (by decide)
  have henter : (TreeTransform.enterTT m₀ tname).1 =
      m₀ ++ [(tname, (some 448, Obj.dir)),
             (tname ++ '/' :: strL "new", (some 448, Obj.dir)),
             (tname ++ '/' :: strL "old", (some 448, Obj.dir))] := by
    show StoreTree.mkdir (StoreTree.mkdir (StoreTree.mkdir m₀ tname
        (some 448)) (osJoin tname (strL "new")) (some 448))
        (osJoin tname (strL "old")) (some 448) = _
    unfold StoreTree.mkdir MemoryFileStore.mkdir
    rw [hjn, hjo]
    have e1 : dictSet m₀ tname ((some 448 : Option Nat), Obj.dir) =
        m₀ ++ [(tname, (some 448, Obj.dir))] :=
      dictSet_fresh m₀ tname _ (hneSub tname (isSubpathB_self tname))
    have e2 : dictSet (m₀ ++ [(tname, ((some 448 : Option Nat), Obj.dir))])
        (tname ++ '/' :: strL "new") ((some 448 : Option Nat), Obj.dir) =
        (m₀ ++ [(tname, (some 448, Obj.dir))]) ++
          [(tname ++ '/' :: strL "new", (some 448, Obj.dir))] := by
      refine dictSet_fresh _ _ _ ?_
      intro kv hkv
      rcases List.mem_append.mp hkv with hin | hin
      · exact hneSub _ (isSubpathB_append tname _) kv hin
      · simp only [List.mem_singleton] at hin
        rw [hin]
        exact ne_append_cons tname '/' _
    have e3 : dictSet ((m₀ ++ [(tname, ((some 448 : Option Nat), Obj.dir))])
          ++ [(tname ++ '/' :: strL "new", (some 448, Obj.dir))])
        (tname ++ '/' :: strL "old") ((some 448 : Option Nat), Obj.dir) =
        ((m₀ ++ [(tname, (some 448, Obj.dir))]) ++
          [(tname ++ '/' :: strL "new", (some 448, Obj.dir))]) ++
          [(tname ++ '/' :: strL "old", (some 448, Obj.dir))] := by
      refine dictSet_fresh _ _ _ ?_
      intro kv hkv
      rcases List.mem_append.mp hkv with hin | hin
      · rcases List.mem_append.mp hin with hin2 | hin2
        · exact hneSub _ (isSubpathB_append tname _) kv hin2
        · simp only [List.mem_singleton] at hin2
          rw [hin2]
          exact ne_append_cons tname '/' _
      · simp only [List.mem_singleton] at hin
        rw [hin]
        intro hc
        have hdrop := congrArg (fun l => List.drop tname.length l) hc
        simp only at hdrop
        rw [show tname ++ '/' :: strL "new" = tname ++ ('/' :: strL "new")
              from rfl, List.drop_left,
            show tname ++ '/' :: strL "old" = tname ++ ('/' :: strL "old")
              from rfl, List.drop_left] at hdrop
        exact absurd hdrop (by decide)
    rw [e1, e2, e3]
    simp
  have henter2 : ∀ kv ∈ [(tname, ((some 448 : Option Nat), Obj.dir)),
      (tname ++ '/' :: strL "new", (some 448, Obj.dir)),
      (tname ++ '/' :: strL "old", (some 448, Obj.dir))],
      isSubpathB tname kv.1 = true := by
    intro kv hkv
    rcases List.mem_cons.mp hkv with rfl | hkv
    · exact isSubpathB_self tname
    · rcases List.mem_cons.mp hkv with rfl | hkv
      · exact isSubpathB_append tname _
      · rcases List.mem_cons.mp hkv with rfl | hkv
        · exact isSubpathB_append tname _
        · simp at hkv
  obtain ⟨extra', hrun1, hrun2⟩ := runOps_extends tname h1 h2 m₀ hfresh ops
    (TreeTransform.enterTT m₀ tname).1
    (TTState.active (TreeTransform.enterTT m₀ tname).2) _ henter henter2
    (by
      intro d hd
      injection hd with hd2
      rw [← hd2]
      rfl)
  have hfinal : TreeTransform.run_scope_exception m₀ tname ops =
      (m₀, TTState.inactive) := by
    unfold TreeTransform.run_scope_exception TreeTransform.exit_exception
    dsimp only
    rw [hrun1]
    unfold StoreTree.rmtree
    rw [List.filter_append]
    rw [List.filter_eq_self.mpr (by
      intro kv hkv
      rw [hfresh kv hkv]
      rfl)]
    rw [List.filter_eq_nil_iff.mpr (by
      intro kv hkv
      rw [hrun2 kv hkv]
      simp)]
    simp
  refine ⟨hfinal, ?_⟩
  intro p hp
  rw [hfinal]
  exact dictLookup_eq_none m₀ p (hneSub p hp)

/-- Witness for **C5**: the `{root, dir1, dir1/dir2}` tree, staging name
`transform-t`, and a block that acquires, records a placement, creates a
file and schedules a deletion before failing. -/
theorem c5_scope_exception_atomic_witness :
    TreeTransform.run_scope_exception swapStore₀ (strL "transform-t") opsW =
      (swapStore₀, TTState.inactive) :=
  (c5_scope_exception_atomic swapStore₀ (strL "transform-t") opsW
    (by decide) (by decide) (by decide)).1

/-! ## Support lemmas for the ancestor-chain theorem -/

theorem takeWhile_all {α : Type} (p : α → Bool) (l : List α)
    (h : ∀ a ∈ l, p a = true) : l.takeWhile p = l := by
  induction l with
  | nil => rfl
  | cons a t ih =>
    rw [List.takeWhile_cons, h a (by simp), if_pos rfl,
        ih (fun b hb => h b (by simp [hb]))]

theorem dropWhile_all {α : Type} (p : α → Bool) (l : List α)
    (h : ∀ a ∈ l, p a = true) : l.dropWhile p = [] := by
  induction l with
  | nil => rfl
  | cons a t ih =>
    rw [List.dropWhile_cons_of_pos (h a (by simp))]
    exact ih (fun b hb => h b (by simp [hb]))

theorem takeWhile_append_stop {α : Type} (p : α → Bool) (xs : List α)
    (y : α) (zs : List α) (hxs : ∀ a ∈ xs, p a = true) (hy : p y = false) :
    (xs ++ y :: zs).takeWhile p = xs := by
  induction xs with
  | nil => simp [List.takeWhile_cons, hy]
  | cons a t ih =>
    rw [List.cons_append, List.takeWhile_cons, hxs a (by simp), if_pos rfl,
        ih (fun b hb => hxs b (by simp [hb]))]

theorem dropWhile_append_stop {α : Type} (p : α → Bool) (xs : List α)
    (y : α) (zs : List α) (hxs : ∀ a ∈ xs, p a = true) (hy : p y = false) :
    (xs ++ y :: zs).dropWhile p = y :: zs := by
  induction xs with
  | nil => simp [List.dropWhile_cons, hy]
  | cons a t ih =>
    rw [List.cons_append, List.dropWhile_cons_of_pos (hxs a (by simp))]
    exact ih (fun b hb => hxs b (by simp [hb]))

theorem osSplit_noslash (s : PathStr) (h : '/' ∉ s) : osSplit s = ([], s) := by
  have hall : ∀ a ∈ s.reverse, (fun c : Char => decide (c ≠ '/')) a = true := by
    intro a ha
    simp only [decide_eq_true_eq]
    intro hc
    subst hc
    exact h (List.mem_reverse.mp ha)
  unfold osSplit
  dsimp only []
  rw [takeWhile_all _ _ hall, dropWhile_all _ _ hall]
  simp

theorem splitSep_noslash (s : PathStr) (h : '/' ∉ s) : splitSep s = [s] := by
  induction s with
  | nil => rfl
  | cons c t ih =>
    have hc : ¬ c = '/' := fun hc2 => h (by simp [hc2])
    have ht : splitSep t = [t] := ih (fun hm => h (by simp [hm]))
    simp [splitSep, hc, ht]

theorem splitSep_append_cons (s X : PathStr) (h : '/' ∉ s) :
    splitSep (s ++ '/' :: X) = s :: splitSep X := by
  induction s with
  | nil => simp [splitSep]
  | cons c s' ih =>
    have hc : ¬ c = '/' := fun hc2 => h (by simp [hc2])
    have ih2 := ih (fun hm => h (by simp [hm]))
    simp [splitSep, hc, ih2]

theorem splitSep_join : ∀ (segs : List PathStr), segs ≠ [] →
    (∀ s ∈ segs, '/' ∉ s) → splitSep (joinSegs segs) = segs := by
  intro segs
  induction segs with
  | nil => intro hne _; exact absurd rfl hne
  | cons s rest ih =>
    intro _ h
    cases rest with
    | nil => exact splitSep_noslash s (h s (by simp))
    | cons r rest' =>
      rw [show joinSegs (s :: r :: rest') = s ++ '/' :: joinSegs (r :: rest')
            from rfl]
      rw [splitSep_append_cons s _ (h s (by simp))]
      rw [ih (by simp) (fun x hx => h x (by simp [hx]))]

theorem normParts_clean : ∀ (cs acc : List PathStr),
    (∀ s ∈ cs, s ≠ [] ∧ s ≠ strL "." ∧ s ≠ strL "..") →
    normParts false cs acc = acc.reverse ++ cs := by
  intro cs
  induction cs with
  | nil => intro acc _; simp [normParts]
  | cons c cs' ih =>
    intro acc h
    obtain ⟨h1, h2, h3⟩ := h c (by simp)
    rw [show normParts false (c :: cs') acc = normParts false cs' (c :: acc)
          from by
        simp only [normParts]
        rw [if_neg (by rintro (hc | hc); exacts [h1 hc, h2 hc]),
            if_neg h3]]
    rw [ih (c :: acc) (fun s hs => h s (by simp [hs]))]
    simp

theorem startswith_refl (s : PathStr) : startswith s s = true :=
  (startswith_iff s s).mpr ⟨[], by simp⟩

theorem startswith_dd_append (s t : PathStr) (h1 : s ≠ [])
    (h2 : s ≠ strL ".") (h3 : startswith s (strL "..") = false) :
    startswith (s ++ t) (strL "..") = false := by
  cases s with
  | nil => exact absurd rfl h1
  | cons c s' =>
    cases s' with
    | nil =>
      have hc : ¬ c = '.' := by
        intro hc2
        exact h2 (by rw [hc2]; rfl)
      show startswith (c :: t) (strL "..") = false
      simp [startswith, hc]
    | cons c₂ s'' =>
      show startswith (c :: c₂ :: (s'' ++ t)) (strL "..") = false
      simp only [show strL ".." = '.' :: '.' :: [] from rfl, startswith,
        Bool.and_eq_false_iff] at h3 ⊢
      rcases h3 with h3 | h3
      · exact Or.inl h3
      · rcases h3 with h3 | h3
        · exact Or.inr (Or.inl h3)
        · simp [startswith] at h3

theorem joinSegs_head_cons (s : PathStr) (rest : List PathStr) :
    ∃ t, joinSegs (s :: rest) = s ++ t := by
  cases rest with
  | nil => exact ⟨[], by simp [joinSegs]⟩
  | cons r rest' => exact ⟨'/' :: joinSegs (r :: rest'), rfl⟩

theorem joinSegs_length_pos (segs : List PathStr) (hne : segs ≠ [])
    (hv : ∀ seg ∈ segs, seg ≠ []) : 0 < (joinSegs segs).length := by
  cases segs with
  | nil => exact absurd rfl hne
  | cons s rest =>
    obtain ⟨t, ht⟩ := joinSegs_head_cons s rest
    rw [ht]
    cases hs : s with
    | nil => exact absurd hs (hv s (by simp))
    | cons c s' => simp

theorem joinSegs_ne_nil (segs : List PathStr) (hne : segs ≠ [])
    (hv : ∀ seg ∈ segs, seg ≠ []) : joinSegs segs ≠ [] := by
  intro hc
  have := joinSegs_length_pos segs hne hv
  rw [hc] at this
  simp at this

theorem joinSegs_append_singleton (ss : List PathStr) (s : PathStr)
    (h : ss ≠ []) : joinSegs (ss ++ [s]) = joinSegs ss ++ '/' :: s := by
  induction ss with
  | nil => exact absurd rfl h
  | cons a ss' ih =>
    cases ss' with
    | nil => simp [joinSegs]
    | cons b ss'' =>
      show joinSegs (a :: ((b :: ss'') ++ [s])) =
        (a ++ '/' :: joinSegs (b :: ss'')) ++ '/' :: s
      rw [show joinSegs (a :: ((b :: ss'') ++ [s])) =
            a ++ '/' :: joinSegs ((b :: ss'') ++ [s]) from rfl]
      rw [ih (by simp)]
      simp

theorem joinSegs_ne_dot (segs : List PathStr) (hne : segs ≠ [])
    (hv : ∀ seg ∈ segs, seg ≠ [] ∧ seg ≠ strL ".") :
    joinSegs segs ≠ strL "." := by
  cases segs with
  | nil => exact absurd rfl hne
  | cons s rest =>
    cases rest with
    | nil => exact (hv s (by simp)).2
    | cons r rest' =>
      intro hc
      have hlen := congrArg List.length hc
      rw [show joinSegs (s :: r :: rest') = s ++ '/' :: joinSegs (r :: rest')
            from rfl] at hlen
      simp only [List.length_append, List.length_cons] at hlen
      have hs : 0 < s.length :=
        List.length_pos.mpr (hv s (by simp)).1
      have hr : 0 < (joinSegs (r :: rest')).length :=
        joinSegs_length_pos _ (by simp) (fun seg hseg => (hv seg (by
          simp [hseg])).1)
      simp [strL] at hlen
      omega

theorem joinSegs_snoc_length_gt (ss : List PathStr) (s : PathStr)
    (hs : s ≠ []) :
    (joinSegs ss).length < (joinSegs (ss ++ [s])).length := by
  cases hss : ss with
  | nil =>
    simp only [joinSegs, List.nil_append, List.length_nil]
    cases s with
    | nil => exact absurd rfl hs
    | cons c s' => simp [joinSegs]
  | cons a t =>
    rw [← hss, joinSegs_append_singleton ss s (by rw [hss]; simp)]
    simp

theorem joinSegs_take_length_lt : ∀ (segs : List PathStr),
    (∀ seg ∈ segs, seg ≠ []) → ∀ j, j < segs.length →
    (joinSegs (segs.take j)).length < (joinSegs segs).length := by
  intro segs
  induction segs using List.reverseRecOn with
  | nil => intro _ j hj; simp at hj
  | append_singleton ss s ih =>
    intro hv j hj
    rw [List.length_append, List.length_singleton] at hj
    by_cases hj2 : j < ss.length
    · rw [List.take_append_of_le_length (Nat.le_of_lt hj2)]
      exact Nat.lt_trans (ih (fun x hx => hv x (by simp [hx])) j hj2)
        (joinSegs_snoc_length_gt ss s (hv s (by simp)))
    · have hje : j = ss.length := by omega
      subst hje
      rw [List.take_append_of_le_length (Nat.le_refl _), List.take_length]
      exact joinSegs_snoc_length_gt ss s (hv s (by simp))

theorem head?_append_ne (s t : PathStr) (c : Char) (hne : s ≠ [])
    (h : c ∉ s) : (s ++ t).head? ≠ some c := by
  cases s with
  | nil => exact absurd rfl hne
  | cons a s' =>
    simp only [List.cons_append, List.head?_cons]
    intro hc
    injection hc with hc2
    exact h (by simp [hc2])

theorem normpath_join (segs : List PathStr) (hne : segs ≠ [])
    (hv : ∀ s ∈ segs, s ≠ [] ∧ '/' ∉ s ∧ s ≠ strL "." ∧
      startswith s (strL "..") = false) :
    normpath (joinSegs segs) = joinSegs segs := by
  obtain ⟨s, rest, rfl⟩ : ∃ s rest, segs = s :: rest := by
    cases segs with
    | nil => exact absurd rfl hne
    | cons s rest => exact ⟨_, _, rfl⟩
  have hs := hv s (by simp)
  have hjne : joinSegs (s :: rest) ≠ [] :=
    joinSegs_ne_nil _ (by simp) (fun seg hseg => (hv seg hseg).1)
  have hhead : ¬ (joinSegs (s :: rest)).head? = some '/' := by
    obtain ⟨t, ht⟩ := joinSegs_head_cons s rest
    rw [ht]
    exact head?_append_ne s t '/' hs.1 hs.2.1
  unfold normpath
  rw [if_neg hjne]
  dsimp only
  rw [decide_eq_false hhead]
  rw [splitSep_join (s :: rest) (by simp) (fun x hx => (hv x hx).2.1)]
  rw [normParts_clean (s :: rest) []
    (fun x hx => ⟨(hv x hx).1, (hv x hx).2.2.1, fun hdd => by
      have hsw := (hv x hx).2.2.2
      rw [hdd, startswith_refl] at hsw
      exact absurd hsw (by simp)⟩)]
  simp [hhead, hjne]

theorem tree_path_to_id_join (segs : List PathStr) (hne : segs ≠ [])
    (hv : ∀ s ∈ segs, s ≠ [] ∧ '/' ∉ s ∧ s ≠ strL "." ∧
      startswith s (strL "..") = false) :
    TreeTransform.tree_path_to_id (joinSegs segs) =
      .ok (strL "e-" ++ joinSegs segs) := by
  obtain ⟨s, rest, rfl⟩ : ∃ s rest, segs = s :: rest := by
    cases segs with
    | nil => exact absurd rfl hne
    | cons s rest => exact ⟨_, _, rfl⟩
  have hs := hv s (by simp)
  have hsw : startswith (joinSegs (s :: rest)) (strL "..") = false := by
    obtain ⟨t, ht⟩ := joinSegs_head_cons s rest
    rw [ht]
    exact startswith_dd_append s t hs.1 hs.2.2.1 hs.2.2.2
  unfold TreeTransform.tree_path_to_id
  dsimp only
  rw [normpath_join (s :: rest) (by simp) hv, hsw]
  simp

theorem joinSegs_getLast_ne : ∀ (segs : List PathStr), segs ≠ [] →
    (∀ seg ∈ segs, seg ≠ [] ∧ '/' ∉ seg) →
    (joinSegs segs).getLast? ≠ some '/' := by
  intro segs
  induction segs with
  | nil => intro hne _; exact absurd rfl hne
  | cons s rest ih =>
    intro _ hv
    cases rest with
    | nil =>
      intro hc
      exact (hv s (by simp)).2 (getLast?_mem_of _ _ hc)
    | cons r rest' =>
      rw [show joinSegs (s :: r :: rest') = s ++ '/' :: joinSegs (r :: rest')
            from rfl]
      rw [List.getLast?_append_cons]
      have hjr : joinSegs (r :: rest') ≠ [] :=
        joinSegs_ne_nil _ (by simp) (fun seg hseg =>
          (hv seg (by simp [hseg])).1)
      cases hjc : joinSegs (r :: rest') with
      | nil => exact absurd hjc hjr
      | cons x X =>
        rw [List.getLast?_cons_cons]
        rw [← hjc]
        exact ih (by simp) (fun seg hseg => hv seg (by simp [hseg]))

theorem osSplit_join_snoc (ss : List PathStr) (s : PathStr)
    (hv : ∀ seg ∈ ss, seg ≠ [] ∧ '/' ∉ seg) (hs : '/' ∉ s) :
    osSplit (joinSegs (ss ++ [s])) = (joinSegs ss, s) := by
  cases hss : ss with
  | nil => exact osSplit_noslash s hs
  | cons a t =>
    rw [← hss, joinSegs_append_singleton ss s (by rw [hss]; simp)]
    unfold osSplit
    dsimp only []
    have hrev : (joinSegs ss ++ '/' :: s).reverse =
        s.reverse ++ '/' :: (joinSegs ss).reverse := by
      simp
    rw [hrev]
    have hsall : ∀ a ∈ s.reverse, (fun c : Char => decide (c ≠ '/')) a =
        true := by
      intro a ha
      simp only [decide_eq_true_eq]
      intro hc
      subst hc
      exact hs (List.mem_reverse.mp ha)
    rw [takeWhile_append_stop _ _ _ _ hsall (by simp),
        dropWhile_append_stop _ _ _ _ hsall (by simp)]
    have hjlast : (joinSegs ss).getLast? ≠ some '/' :=
      joinSegs_getLast_ne ss (by rw [hss]; simp) hv
    have hfirst : ∃ c rrest, (joinSegs ss).reverse = c :: rrest ∧ c ≠ '/' := by
      cases hjr : (joinSegs ss).reverse with
      | nil =>
        exfalso
        have : joinSegs ss = [] := by
          have := congrArg List.reverse hjr
          simpa using this
        exact joinSegs_ne_nil ss (by rw [hss]; simp)
          (fun seg hseg => (hv seg hseg).1) this
      | cons c rrest =>
        refine ⟨c, rrest, rfl, ?_⟩
        intro hc
        subst hc
        apply hjlast
        rw [← List.head?_reverse]
        rw [hjr]
        rfl
    obtain ⟨c, rrest, hjr, hcne⟩ := hfirst
    rw [hjr]
    have hallfalse : ('/' :: c :: rrest).all (fun c => decide (c = '/')) =
        false := by
      simp only [List.all_cons, Bool.and_eq_false_iff]
      right
      left
      simp [hcne]
    rw [hallfalse]
    simp only [Bool.false_eq_true, if_false]
    rw [List.dropWhile_cons_of_pos (by simp),
        List.dropWhile_cons_of_neg (by simp [hcne])]
    rw [← hjr]
    simp

/-- The recursion of `acquire_existing_id` on a clean segment path whose
chain is unregistered: it succeeds, registers every prefix of the path with
(parent identifier, basename) name-info, and touches nothing else. -/
theorem acquire_aux_chain :
    ∀ (segs : List PathStr), segs ≠ [] →
    (∀ s ∈ segs, s ≠ [] ∧ '/' ∉ s ∧ s ≠ strL "." ∧
      startswith s (strL "..") = false) →
    ∀ (d : ActiveTT),
    (∀ i, i < segs.length →
      dictLookup d.nameInfo (strL "e-" ++ joinSegs (segs.take (i + 1))) =
        none) →
    ∀ fuel, (joinSegs segs).length < fuel →
    ∃ d' : ActiveTT,
      TreeTransform.acquire_existing_aux fuel (TTState.active d)
          (joinSegs segs) =
        .ok (strL "e-" ++ joinSegs segs, TTState.active d') ∧
      (∀ i, i < segs.length →
        dictLookup d'.nameInfo
            (strL "e-" ++ joinSegs (segs.take (i + 1))) =
          some (strL "e-" ++ normpath (joinSegs (segs.take i)),
                segs.getD i [])) ∧
      (∀ fid, (∀ i, i < segs.length →
          fid ≠ strL "e-" ++ joinSegs (segs.take (i + 1))) →
        dictLookup d'.nameInfo fid = dictLookup d.nameInfo fid) := by
  intro segs
  induction segs using List.reverseRecOn with
  | nil => intro hne; exact absurd rfl hne
  | append_singleton ss s ih =>
    intro _ hv d hnone fuel hfuel
    have hvs := hv s (by simp)
    have hvss : ∀ seg ∈ ss, seg ≠ [] ∧ '/' ∉ seg ∧ seg ≠ strL "." ∧
        startswith seg (strL "..") = false :=
      fun seg hseg => hv seg (by simp [hseg])
    have hlen1 : 0 < (joinSegs (ss ++ [s])).length :=
      joinSegs_length_pos _ (by simp) (fun seg hseg => (hv seg hseg).1)
    obtain ⟨f, rfl⟩ : ∃ f, fuel = f + 1 := by
      cases fuel with
      | zero => omega
      | succ f => exact ⟨f, rfl⟩
    have htp := tree_path_to_id_join (ss ++ [s]) (by simp) hv
    have hproot : ¬ (joinSegs (ss ++ [s]) = strL "." ∨
        joinSegs (ss ++ [s]) = []) := by
      rintro (hc | hc)
      · exact joinSegs_ne_dot (ss ++ [s]) (by simp)
          (fun seg hseg => ⟨(hv seg hseg).1, (hv seg hseg).2.2.1⟩) hc
      · exact joinSegs_ne_nil (ss ++ [s]) (by simp)
          (fun seg hseg => (hv seg hseg).1) hc
    have htake_all : (ss ++ [s]).take (ss.length + 1) = ss ++ [s] := by
      rw [show ss.length + 1 = (ss ++ [s]).length from by simp,
          List.take_length]
    have hlookup : ¬ (dictLookup d.nameInfo
        (strL "e-" ++ joinSegs (ss ++ [s]))).isSome = true := by
      have hn := hnone ss.length (by simp)
      rw [htake_all] at hn
      rw [hn]
      simp
    have hsplit : osSplit (joinSegs (ss ++ [s])) = (joinSegs ss, s) :=
      osSplit_join_snoc ss s
        (fun seg hseg => ⟨(hvss seg hseg).1, (hvss seg hseg).2.1⟩)
        hvs.2.1
    have hstep : TreeTransform.acquire_existing_aux (f + 1)
        (TTState.active d) (joinSegs (ss ++ [s])) =
        (match TreeTransform.acquire_existing_aux f (TTState.active d)
            (joinSegs ss) with
         | .error e => .error e
         | .ok (pid, st') =>
           match TreeTransform.set_name_info st'
               (strL "e-" ++ joinSegs (ss ++ [s])) pid s with
           | .error e => .error e
           | .ok st'' =>
             .ok (strL "e-" ++ joinSegs (ss ++ [s]), st'')) := by
      simp only [TreeTransform.acquire_existing_aux]
      rw [htp]
      dsimp only
      rw [if_neg hproot]
      rw [if_neg hlookup, hsplit]
    by_cases hss : ss = []
    · subst hss
      obtain ⟨g, rfl⟩ : ∃ g, f = g + 1 := by
        cases f with
        | zero => omega
        | succ g => exact ⟨g, rfl⟩
      have hrec : TreeTransform.acquire_existing_aux (g + 1)
          (TTState.active d) (joinSegs ([] : List PathStr)) =
          .ok (strL "e-.", TTState.active d) := rfl
      refine ⟨{ d with nameInfo := (dictSet d.nameInfo
          (strL "e-" ++ joinSegs ([] ++ [s])) (strL "e-.", s)) },
          ?_, ?_, ?_⟩
      · rw [hstep, hrec]
        rfl
      · intro i hi
        have hi0 : i = 0 := by simp at hi; omega
        subst hi0
        dsimp only
        have hk : strL "e-" ++ joinSegs (List.take (0 + 1) ([] ++ [s])) =
            strL "e-" ++ joinSegs ([] ++ [s]) := rfl
        rw [hk, dictLookup_dictSet]
        rw [if_pos rfl]
        rfl
      · intro fid hfid
        have hne0 : fid ≠ strL "e-" ++ joinSegs ([] ++ [s]) :=
          hfid 0 (by simp)
        dsimp only
        rw [dictLookup_dictSet, if_neg hne0]
    · have hfuel2 : (joinSegs ss).length < f := by
        rw [joinSegs_append_singleton ss s hss] at hfuel
        simp only [List.length_append, List.length_cons] at hfuel
        omega
      have hnone' : ∀ i, i < ss.length →
          dictLookup d.nameInfo (strL "e-" ++ joinSegs (ss.take (i + 1))) =
            none := by
        intro i hi
        have hn := hnone i (by simp; omega)
        rw [List.take_append_of_le_length (by omega)] at hn
        exact hn
      obtain ⟨d₁, hih1, hih2, hih3⟩ := ih hss hvss d hnone' f hfuel2
      refine ⟨{ d₁ with nameInfo := (dictSet d₁.nameInfo
          (strL "e-" ++ joinSegs (ss ++ [s]))
          (strL "e-" ++ joinSegs ss, s)) }, ?_, ?_, ?_⟩
      · rw [hstep, hih1]
        rfl
      · intro i hi
        rw [List.length_append, List.length_singleton] at hi
        by_cases hi2 : i < ss.length
        · have htk : (ss ++ [s]).take (i + 1) = ss.take (i + 1) :=
            List.take_append_of_le_length (by omega)
          have htki : (ss ++ [s]).take i = ss.take i :=
            List.take_append_of_le_length (by omega)
          have hkey_ne : strL "e-" ++ joinSegs ((ss ++ [s]).take (i + 1)) ≠
              strL "e-" ++ joinSegs (ss ++ [s]) := by
            intro hc
            have hlen := congrArg List.length hc
            simp only [List.length_append] at hlen
            have hlt := joinSegs_take_length_lt (ss ++ [s])
              (fun seg hseg => (hv seg hseg).1) (i + 1) (by simp; omega)
            omega
          dsimp only
          rw [dictLookup_dictSet, if_neg hkey_ne]
          rw [htk, htki]
          rw [hih2 i hi2]
          rw [List.getD_append ss [s] [] i hi2]
        · have hie : i = ss.length := by omega
          subst hie
          dsimp only
          rw [dictLookup_dictSet]
          rw [if_pos (by rw [htake_all])]
          have htkss : (ss ++ [s]).take ss.length = ss := by
            rw [List.take_append_of_le_length (Nat.le_refl _),
                List.take_length]
          rw [htkss]
          rw [normpath_join ss hss hvss]
          rw [show (ss ++ [s]).getD ss.length [] = s from by
            simp [List.getD_append_right, Nat.le_refl]]
      · intro fid hfid
        have hfid_new : fid ≠ strL "e-" ++ joinSegs (ss ++ [s]) := by
          have hf := hfid ss.length (by simp)
          rw [htake_all] at hf
          exact hf
        dsimp only
        rw [dictLookup_dictSet, if_neg hfid_new]
        exact hih3 fid (fun i hi => by
          have hf := hfid i (by simp; omega)
          rw [List.take_append_of_le_length (by omega)] at hf
          exact hf)

/-- **C9** (amended): for every active transform and every non-root
normalized path (a nonempty chain of clean segments) none of whose prefixes
already has recorded name-info, `acquire_existing_id` returns the path's
identifier and registers the full ancestor chain — every prefix's
identifier maps to (its parent's identifier, its basename) — changing no
other name-info; and a second acquisition of the same path returns the same
identifier and leaves the state unchanged. -/
theorem c9_acquire_registers_chain (segs : List PathStr) (d : ActiveTT)
    (hne : segs ≠ [])
    (hv : ∀ s ∈ segs, s ≠ [] ∧ '/' ∉ s ∧ s ≠ strL "." ∧
      startswith s (strL "..") = false)
    (hnone : ∀ i, i < segs.length →
      dictLookup d.nameInfo (strL "e-" ++ joinSegs (segs.take (i + 1))) =
        none) :
    ∃ d' : ActiveTT,
      TreeTransform.acquire_existing_id (TTState.active d)
          (joinSegs segs) =
        .ok (strL "e-" ++ joinSegs segs, TTState.active d') ∧
      (∀ i, i < segs.length →
        dictLookup d'.nameInfo
            (strL "e-" ++ joinSegs (segs.take (i + 1))) =
          some (strL "e-" ++ normpath (joinSegs (segs.take i)),
                segs.getD i [])) ∧
      (∀ fid, (∀ i, i < segs.length →
          fid ≠ strL "e-" ++ joinSegs (segs.take (i + 1))) →
        dictLookup d'.nameInfo fid = dictLookup d.nameInfo fid) ∧
      TreeTransform.acquire_existing_id (TTState.active d')
          (joinSegs segs) =
        .ok (strL "e-" ++ joinSegs segs, TTState.active d') := by
  obtain ⟨d', h1, h2, h3⟩ := acquire_aux_chain segs hne hv d hnone
    ((joinSegs segs).length + 1) (Nat.lt_succ_self _)
  refine ⟨d', h1, h2, h3, ?_⟩
  show TreeTransform.acquire_existing_aux ((joinSegs segs).length + 1)
    (TTState.active d') (joinSegs segs) = _
  simp only [TreeTransform.acquire_existing_aux]
  rw [tree_path_to_id_join segs hne hv]
  dsimp only
  rw [if_neg (by
    rintro (hc | hc)
    · exact joinSegs_ne_dot segs hne (fun seg hseg =>
        ⟨(hv seg hseg).1, (hv seg hseg).2.2.1⟩) hc
    · exact joinSegs_ne_nil segs hne
        (fun seg hseg => (hv seg hseg).1) hc)]
  rw [if_pos (by
    obtain ⟨n, hn⟩ : ∃ n, segs.length = n + 1 := by
      cases segs with
      | nil => exact absurd rfl hne
      | cons a t => exact ⟨t.length, by simp⟩
    have hlast := h2 n (by omega)
    rw [show segs.take (n + 1) = segs from by rw [← hn, List.take_length]]
      at hlast
    rw [hlast]
    rfl)]

/-- Witness for **C9**: acquiring `a/b` in a fresh active transform. -/
theorem c9_acquire_registers_chain_witness :
    ∃ d' : ActiveTT,
      TreeTransform.acquire_existing_id
          (TTState.active ⟨[], 0, [], [], strL "t"⟩)
          (joinSegs [strL "a", strL "b"]) =
        .ok (strL "e-" ++ joinSegs [strL "a", strL "b"],
             TTState.active d') ∧
      (∀ i, i < ([strL "a", strL "b"] : List PathStr).length →
        dictLookup d'.nameInfo
            (strL "e-" ++ joinSegs (([strL "a", strL "b"] :
              List PathStr).take (i + 1))) =
          some (strL "e-" ++ normpath (joinSegs (([strL "a", strL "b"] :
                  List PathStr).take i)),
                ([strL "a", strL "b"] : List PathStr).getD i [])) ∧
      (∀ fid, (∀ i, i < ([strL "a", strL "b"] : List PathStr).length →
          fid ≠ strL "e-" ++ joinSegs (([strL "a", strL "b"] :
            List PathStr).take (i + 1))) →
        dictLookup d'.nameInfo fid =
          dictLookup (⟨[], 0, [], [], strL "t"⟩ : ActiveTT).nameInfo fid) ∧
      TreeTransform.acquire_existing_id (TTState.active d')
          (joinSegs [strL "a", strL "b"]) =
        .ok (strL "e-" ++ joinSegs [strL "a", strL "b"],
             TTState.active d') :=
  c9_acquire_registers_chain [strL "a", strL "b"]
    ⟨[], 0, [], [], strL "t"⟩ (by simp)
    (by
      intro s hs
      rcases List.mem_cons.mp hs with rfl | hs2
      · decide
      · rcases List.mem_cons.mp hs2 with rfl | hs3
        · decide
        · simp at hs3)
    (fun i hi => rfl)
